import Mathlib

/-!
Verification of the Go-OKD QKD engine against its specification.

This file gives a shallow embedding, in Lean 4, of the parts of the
repository that the checked claims are about:

* the quantum bit/byte primitives (BitsToBytes, BytesToBits);
* the privacy amplifier (Amplify, getHasher, CalculateSecureKeyLength
  with its hand-rolled logarithm);
* the Cascade error corrector (Correct, binarySearch, CalculateParity);
* the BB84 pipeline (PerformKeyExchange and its phases);
* the session coordinator (ExecuteKeyExchange,
  ExecuteKeyExchangeWithPostProcessing, updateSessionStatus).

Modelling conventions, used consistently below:

* Go values of type quantum.Bit are 0/1 throughout the program; they are
  embedded as Bool (Zero = false, One = true); the Go flip 1-b is Bool.not
  and the Go XOR on bits is Bool.xor.  A Basis (0/1) is likewise a Bool.
* Bytes are naturals (always < 256 where produced by the code).
* Go float64 arithmetic is embedded as exact arithmetic on the rationals
  denoted by the source literals; every numeric decision proved or refuted
  below has a margin that is many orders of magnitude above the 2^-52
  relative rounding of float64, and this is noted where it matters.
* Go int conversions int(x) truncate toward zero: goInt below.
* Randomness (math/rand draws, crypto/rand draws, and the quantum
  backend's probabilistic behaviour) is passed in explicitly: random bit
  and basis vectors are list parameters, crypto/rand index draws are list
  parameters, and the quantum backend is a function-valued parameter
  implementing the QuantumBackend interface.  A loop that keeps drawing
  from crypto/rand until it has enough distinct indices is modelled on a
  finite prefix of draws; Option.none marks the (probability-zero) case
  where the modelled prefix is exhausted, and every theorem either
  hypothesises or concludes a some.
* Go runtime panics (out-of-range indexing, calls on nil interfaces,
  make with a negative length) are modelled as Option.none or as an
  explicit panicked outcome, as noted at each definition.
* Go error values are embedded as inductive types whose constructors
  carry exactly the numeric values interpolated into the corresponding
  fmt.Errorf / fmt.Sprintf format string, so that "the message names
  value v" is expressible as "the constructor carries v".
-/

deriving instance DecidableEq for Except

namespace GoOKD

/-- Go int(x) conversion of a float64, embedded on ℚ: truncation toward
zero. -/
def goInt (q : ℚ) : ℤ :=
  if q < 0 then -Int.floor (-q) else Int.floor q

/-! ## Quantum primitives (src/unnamed/part_003, package quantum) -/

namespace quantum

/-- One step of the BitsToBytes loop body:
bytes[byteIndex] |= (1 << bitIndex).  A set past the end of the list is
impossible in the calls made by BitsToBytes (byteIndex < numBytes). -/
def setBitOr (bytes : List ℕ) (byteIndex bitIndex : ℕ) : List ℕ :=
  bytes.set byteIndex (bytes.getD byteIndex 0 ||| (1 <<< bitIndex))

/-- The range loop of Go BitsToBytes: for i, bit := range bits, with i
the absolute bit index; if bit == One set bit (7 - i%8) of byte i/8. -/
def bitsToBytesLoop (bits : List Bool) (i : ℕ) (bytes : List ℕ) : List ℕ :=
  match bits with
  | [] => bytes
  | b :: rest =>
      bitsToBytesLoop rest (i + 1)
        (if b then setBitOr bytes (i / 8) (7 - i % 8) else bytes)

/-- Go quantum.BitsToBytes: big-endian packing, numBytes = (n+7)/8,
starting from a zeroed byte slice. -/
def BitsToBytes (bits : List Bool) : List ℕ :=
  bitsToBytesLoop bits 0 (List.replicate ((bits.length + 7) / 8) 0)

/-- The i-loop of Go BytesToBits over the index list; each iteration
reads bytes[i/8] & (1 << (7 - i%8)).  The read carries no bounds check in
the source, so an out-of-range byte index is an index-out-of-range panic,
modelled as none. -/
def bytesToBitsAux (bytes : List ℕ) : List ℕ → Option (List Bool)
  | [] => some []
  | i :: rest =>
      if h : i / 8 < bytes.length then
        match bytesToBitsAux bytes rest with
        | some bs =>
            some ((decide (bytes.get ⟨i / 8, h⟩ &&& 1 <<< (7 - i % 8) ≠ 0)) :: bs)
        | none => none
      else none

/-- Go quantum.BytesToBits(bytes, bitLength).  bitLength is a Go int
(signed); make([]Bit, bitLength) panics when bitLength < 0, modelled as
none, and each loop read may panic as in bytesToBitsAux. -/
def BytesToBits (bytes : List ℕ) (bitLength : ℤ) : Option (List Bool) :=
  if bitLength < 0 then none
  else bytesToBitsAux bytes (List.range bitLength.toNat)

end quantum

/-! ## Privacy amplification (src/internal/qkd/crypto/privacy_amplification.go) -/

namespace crypto

/-- Source literal 0.693147180559945309417232121458 (the ln2 constant in
math_log2), read as the exact rational it denotes. -/
def ln2Const : ℚ := 693147180559945309417232121458 / 10 ^ 30

/-- Go crypto.math_log: the hand-rolled natural-logarithm approximation
2z(1 + z²/3 + z⁴/5) with z = (x-1)/(x+1), returning 0 for x ≤ 0. -/
def math_log (x : ℚ) : ℚ :=
  if x ≤ 0 then 0
  else
    let z := (x - 1) / (x + 1)
    2 * z * (1 + z * z / 3 + z * z * z * z / 5)

/-- Go crypto.math_log2: math_log x / ln2, returning 0 for x ≤ 0. -/
def math_log2 (x : ℚ) : ℚ :=
  if x ≤ 0 then 0 else math_log x / ln2Const

/-- The local log2 closure inside binaryEntropy: guards x ≤ 0 then calls
math_log2. -/
def entropyLog2 (x : ℚ) : ℚ :=
  if x ≤ 0 then 0 else math_log2 x

/-- Go crypto.binaryEntropy: -p log2 p - (1-p) log2 (1-p), with 0 outside
(0, 1). -/
def binaryEntropy (p : ℚ) : ℚ :=
  if p ≤ 0 ∨ 1 ≤ p then 0
  else -p * entropyLog2 p - (1 - p) * entropyLog2 (1 - p)

/-- Go crypto.CalculateSecureKeyLength: rawKeyLength minus the Shannon
leakage int(binaryEntropy(qber) * rawKeyLength), the disclosed bits and
the security parameter, clipped at 0. -/
def CalculateSecureKeyLength (rawKeyLength : ℤ) (qber : ℚ)
    (disclosedBits securityParameter : ℤ) : ℤ :=
  let shannonLeakage : ℚ := binaryEntropy qber * (rawKeyLength : ℚ)
  let totalLeakage : ℤ := goInt shannonLeakage + disclosedBits
  let secureLength : ℤ := rawKeyLength - totalLeakage - securityParameter
  if secureLength < 0 then 0 else secureLength

/-- The PrivacyAmplifier struct: its method field (Go AmplificationMethod
is a string type). -/
structure PrivacyAmplifier where
  method : String
deriving DecidableEq

/-- The four AmplificationMethod constants and the external hash digests
they select.  The digest functions themselves (crypto/sha256,
crypto/sha512, golang.org/x/crypto/sha3) are external libraries, not part
of this repository; the model is parametric in them and no claim below
depends on digest contents, only on digest lengths. -/
structure HashFamily where
  sha256Dig : List ℕ → List ℕ
  sha512Dig : List ℕ → List ℕ
  sha3of256Dig : List ℕ → List ℕ
  sha3of512Dig : List ℕ → List ℕ

/-- Go crypto.SHA256Method. -/
def SHA256Method : String := "SHA256"

/-- Go crypto.SHA512Method. -/
def SHA512Method : String := "SHA512"

/-- Go crypto.SHA3_256Method. -/
def SHA3_256Method : String := "SHA3-256"

/-- Go crypto.SHA3_512Method. -/
def SHA3_512Method : String := "SHA3-512"

/-- Go crypto.NewPrivacyAmplifier. -/
def NewPrivacyAmplifier (method : String) : PrivacyAmplifier :=
  { method := method }

/-- Go (*PrivacyAmplifier).getHasher: dispatch on the method string; an
unknown method returns (nil, error), modelled as none. -/
def getHasher (hf : HashFamily) (pa : PrivacyAmplifier) :
    Option (List ℕ → List ℕ) :=
  if pa.method = SHA256Method then some hf.sha256Dig
  else if pa.method = SHA512Method then some hf.sha512Dig
  else if pa.method = SHA3_256Method then some hf.sha3of256Dig
  else if pa.method = SHA3_512Method then some hf.sha3of512Dig
  else none

/-- The bytes of fmt.Sprintf applied to an int counter with the decimal
verb: the ASCII codes of the decimal digits. -/
def counterBytes (counter : ℕ) : List ℕ :=
  (Nat.repr counter).toList.map Char.toNat

/-- Errors returned by Amplify; each constructor carries the numeric
values interpolated into the corresponding fmt.Errorf message. -/
inductive AmplifyError where
  | emptyKey : AmplifyError
  | nonPositiveTarget : AmplifyError
  | insufficientSecurity (targetLength maxSecureLength : ℤ) : AmplifyError
deriving DecidableEq

/-- Outcome of a call to Amplify.  panicked models the Go runtime panic
from h.Write on the nil hash.Hash obtained when getHasher errored (the
error is discarded by h, _ := pa.getHasher()); fuelOut is a modelling
artifact marking that the expansion loop did not finish within the fuel
supplied (it cannot occur when the digests are nonempty, proved below). -/
inductive AmplifyOutcome where
  | ok (bytes : List ℕ) : AmplifyOutcome
  | err (e : AmplifyError) : AmplifyOutcome
  | panicked : AmplifyOutcome
  | fuelOut : AmplifyOutcome
deriving DecidableEq

/-- The hash-expansion loop of Amplify: while len(finalKey)*8 <
targetLength, obtain the hasher (panicking on an unknown method), write
keyBytes then the decimal counter, and append the digest. -/
def amplifyLoop (hf : HashFamily) (pa : PrivacyAmplifier) (keyBytes : List ℕ)
    (targetLength : ℕ) : ℕ → List ℕ → ℕ → AmplifyOutcome
  | 0, finalKey, _ =>
      if finalKey.length * 8 < targetLength then .fuelOut else .ok finalKey
  | fuel + 1, finalKey, counter =>
      if finalKey.length * 8 < targetLength then
        match getHasher hf pa with
        | none => .panicked
        | some dig =>
            amplifyLoop hf pa keyBytes targetLength fuel
              (finalKey ++ dig (keyBytes ++ counterBytes counter)) (counter + 1)
      else .ok finalKey

/-- Go (*PrivacyAmplifier).Amplify(key, informationLeakage, targetLength).
Checks empty key and non-positive target, gates on the leftover-hash
bound with securityParameter 64, then runs hash expansion and truncates
to (targetLength+7)/8 bytes.  The fuel targetLength.toNat suffices
whenever each digest is nonempty (each iteration then lengthens finalKey
by at least one byte). -/
def Amplify (hf : HashFamily) (pa : PrivacyAmplifier) (key : List Bool)
    (informationLeakage : ℚ) (targetLength : ℤ) : AmplifyOutcome :=
  if key.length = 0 then .err .emptyKey
  else if targetLength ≤ 0 then .err .nonPositiveTarget
  else
    let securityParameter : ℤ := 64
    let leakedBits : ℤ := goInt (informationLeakage * (key.length : ℚ))
    let maxSecureLength : ℤ := (key.length : ℤ) - leakedBits - securityParameter
    if maxSecureLength < targetLength then
      .err (.insufficientSecurity targetLength maxSecureLength)
    else
      let keyBytes := quantum.BitsToBytes key
      match amplifyLoop hf pa keyBytes targetLength.toNat targetLength.toNat [] 0 with
      | .ok finalKey =>
          let targetBytes := (targetLength.toNat + 7) / 8
          .ok (if targetBytes < finalKey.length then finalKey.take targetBytes
               else finalKey)
      | out => out

/-! ## Cascade error correction (src/internal/qkd/crypto/error_correction.go) -/

/-- Go crypto.CalculateParity: parity starts at Zero and XOR-accumulates
every bit. -/
def CalculateParity (bits : List Bool) : Bool :=
  bits.foldl (fun parity bit => xor parity bit) false

/-- A Go slice expression key[start:end] on a bit slice. -/
def goSlice (key : List Bool) (s e : ℕ) : List Bool :=
  (key.drop s).take (e - s)

/-- Go corrected[i] = 1 - corrected[i]: flip the bit at index i. -/
def flipAt (key : List Bool) (i : ℕ) : List Bool :=
  key.set i (! key.getD i false)

/-- The loop body of binarySearch, structured on an explicit iteration
bound: every iteration with start < end-1 strictly shrinks end - start,
so end - start iterations always suffice and the 0-fuel case coincides
with the loop exit (it is reached only when end - start has already
shrunk to at most the remaining fuel). -/
def binarySearchGo (aliceKey bobKey : List Bool) : ℕ → ℕ → ℕ → ℕ × ℕ
  | 0, s, _ => (s, 0)
  | fuel + 1, s, e =>
      if s + 1 < e then
        if CalculateParity (goSlice aliceKey s ((s + e) / 2))
            = CalculateParity (goSlice bobKey s ((s + e) / 2)) then
          ((binarySearchGo aliceKey bobKey fuel ((s + e) / 2) e).1,
           (binarySearchGo aliceKey bobKey fuel ((s + e) / 2) e).2 + 1)
        else
          ((binarySearchGo aliceKey bobKey fuel s ((s + e) / 2)).1,
           (binarySearchGo aliceKey bobKey fuel s ((s + e) / 2)).2 + 1)
      else (s, 0)

/-- Go (*CascadeCorrector).binarySearch(aliceKey, bobKey, start, end):
the loop while start < end-1 bisects at mid = (start+end)/2, compares
parities of the left halves (one disclosed bit per step) and narrows to
the half whose parities differ; returns the final start and the number of
disclosed bits. -/
def binarySearch (aliceKey bobKey : List Bool) (s e : ℕ) : ℕ × ℕ :=
  binarySearchGo aliceKey bobKey (e - s) s e

/-- One block of a Cascade pass, acting on the state (corrected key,
totalDisclosedBits): block i spans [i*blockSize, min((i+1)*blockSize,
keyLength)); if the parities differ, binary-search the error and flip it
(the returned errorIdx is never negative); each block adds one disclosed
bit for its parity comparison. -/
def cascadeBlock (aliceKey : List Bool) (blockSize i : ℕ)
    (st : List Bool × ℕ) : List Bool × ℕ :=
  let keyLength := aliceKey.length
  let startIdx := i * blockSize
  let endIdx := min (startIdx + blockSize) keyLength
  let corrected := st.1
  if CalculateParity (goSlice aliceKey startIdx endIdx)
      = CalculateParity (goSlice corrected startIdx endIdx) then
    (corrected, st.2 + 1)
  else
    let r := binarySearch aliceKey corrected startIdx endIdx
    (flipAt corrected r.1, st.2 + r.2 + 1)

/-- One full Cascade pass: numBlocks = ceil(keyLength / blockSize) blocks
processed in order. -/
def cascadePass (aliceKey : List Bool) (blockSize : ℕ)
    (st : List Bool × ℕ) : List Bool × ℕ :=
  let numBlocks := (aliceKey.length + blockSize - 1) / blockSize
  (List.range numBlocks).foldl
    (fun acc i => cascadeBlock aliceKey blockSize i acc) st

/-- The pass loop of Correct: passes iterations, doubling blockSize after
each pass. -/
def cascadeLoop (aliceKey : List Bool) : ℕ → ℕ → List Bool × ℕ → List Bool × ℕ
  | 0, _, st => st
  | p + 1, blockSize, st =>
      cascadeLoop aliceKey p (blockSize * 2) (cascadePass aliceKey blockSize st)

/-- The CascadeCorrector struct. -/
structure CascadeCorrector where
  passes : ℕ
  blockSize : ℕ
  errorRate : ℚ
deriving DecidableEq

/-- Go crypto.NewCascadeCorrector(errorRate): blockSize =
int(0.73/errorRate) for positive errorRate, raised to 1 when below 1;
passes is the fixed 4. -/
def NewCascadeCorrector (errorRate : ℚ) : CascadeCorrector :=
  let blockSize : ℕ :=
    if 0 < errorRate then max (goInt ((73 : ℚ) / 100 / errorRate)).toNat 1
    else 1
  { passes := 4, blockSize := blockSize, errorRate := errorRate }

/-- The only error Correct returns: keys of different lengths. -/
inductive CascadeError where
  | lengthMismatch : CascadeError
deriving DecidableEq

/-- Go (*CascadeCorrector).Correct(aliceKey, bobKey): length check, then
the multi-pass loop starting from a copy of bobKey with 0 disclosed
bits. -/
def CascadeCorrector.Correct (c : CascadeCorrector) (aliceKey bobKey : List Bool) :
    Except CascadeError (List Bool × ℕ) :=
  if aliceKey.length ≠ bobKey.length then .error .lengthMismatch
  else .ok (cascadeLoop aliceKey c.passes c.blockSize (bobKey, 0))

/-- Go crypto.VerifyKeyCorrectness: (whether the keys match, the error
rate).  Mismatched lengths yield (false, 1). -/
def VerifyKeyCorrectness (aliceKey bobKey : List Bool) : Bool × ℚ :=
  if aliceKey.length ≠ bobKey.length then (false, 1)
  else
    let errors :=
      ((List.range aliceKey.length).filter
        (fun i => aliceKey.getD i false ≠ bobKey.getD i false)).length
    (errors = 0, (errors : ℚ) / (aliceKey.length : ℚ))

/-! Spec-side count of parity comparisons.  The specification states
CascadeReport.disclosed_bits ≥ number_of_parity_comparisons, where every
block parity comparison and every binary-search step compares one pair of
parities.  The following definitions follow the spec's words and count
those comparisons along the run; they are compared with the disclosed-bit
count returned by the embedded Correct. -/

/-- Spec-side: parity comparisons made by one binary search (one per
bisection step), on the same iteration bound as binarySearchGo. -/
def searchComparisonsGo (aliceKey bobKey : List Bool) : ℕ → ℕ → ℕ → ℕ
  | 0, _, _ => 0
  | fuel + 1, s, e =>
      if s + 1 < e then
        if CalculateParity (goSlice aliceKey s ((s + e) / 2))
            = CalculateParity (goSlice bobKey s ((s + e) / 2)) then
          searchComparisonsGo aliceKey bobKey fuel ((s + e) / 2) e + 1
        else
          searchComparisonsGo aliceKey bobKey fuel s ((s + e) / 2) + 1
      else 0

/-- Spec-side: parity comparisons made by one binary search. -/
def searchComparisons (aliceKey bobKey : List Bool) (s e : ℕ) : ℕ :=
  searchComparisonsGo aliceKey bobKey (e - s) s e

/-- Spec-side: the state (current Bob key, comparisons so far) after one
block: one comparison for the block parity, plus the search comparisons
when the parities differ (the block's single located error is flipped, as
the protocol prescribes). -/
def specBlock (aliceKey : List Bool) (blockSize i : ℕ)
    (st : List Bool × ℕ) : List Bool × ℕ :=
  let startIdx := i * blockSize
  let endIdx := min (startIdx + blockSize) aliceKey.length
  if CalculateParity (goSlice aliceKey startIdx endIdx)
      = CalculateParity (goSlice st.1 startIdx endIdx) then
    (st.1, st.2 + 1)
  else
    (flipAt st.1 (binarySearch aliceKey st.1 startIdx endIdx).1,
     st.2 + searchComparisons aliceKey st.1 startIdx endIdx + 1)

/-- Spec-side: comparisons of one pass. -/
def specPass (aliceKey : List Bool) (blockSize : ℕ)
    (st : List Bool × ℕ) : List Bool × ℕ :=
  (List.range ((aliceKey.length + blockSize - 1) / blockSize)).foldl
    (fun acc i => specBlock aliceKey blockSize i acc) st

/-- Spec-side: comparisons over all passes. -/
def specLoop (aliceKey : List Bool) : ℕ → ℕ → List Bool × ℕ → List Bool × ℕ
  | 0, _, st => st
  | p + 1, blockSize, st =>
      specLoop aliceKey p (blockSize * 2) (specPass aliceKey blockSize st)

/-- Spec-side: total parity comparisons performed by a Cascade run. -/
def parityComparisons (c : CascadeCorrector) (aliceKey bobKey : List Bool) : ℕ :=
  (specLoop aliceKey c.passes c.blockSize (bobKey, 0)).2

end crypto

/-! ## BB84 pipeline (src/unnamed/part_004, package qkd) -/

namespace qkd

/-- Go quantum.Qubit: a classical value and the preparation basis. -/
structure Qubit where
  classicalValue : Bool
  preparationBasis : Bool
deriving DecidableEq

/-- Go quantum.MeasurementResult. -/
structure MeasurementResult where
  measuredBit : Bool
  measurementBasis : Bool
deriving DecidableEq, Inhabited

/-- An error produced by a backend call (the interface allows any error;
its text is irrelevant to the claims). -/
structure BackendError where
  code : ℕ
deriving DecidableEq

/-- The quantum.QuantumBackend interface, as the two methods the pipeline
calls.  The backend is polymorphic in Go; any function-valued
implementation is a legitimate instantiation, and the simulator's
randomness lives inside the implementation. -/
structure Backend where
  prepareAndSend : List Bool → List Bool → Except BackendError (List Qubit)
  receiveAndMeasure : List Qubit → List Bool → Except BackendError (List MeasurementResult)

/-- The BB84Protocol struct (backend passed separately; the three numeric
fields). -/
structure BB84Protocol where
  keyLength : ℕ
  qberThreshold : ℚ
  sampleSize : ℚ
deriving DecidableEq

/-- Go qkd.NewBB84Protocol: threshold 0.11, sampleSize 0.10. -/
def NewBB84Protocol (keyLength : ℕ) : BB84Protocol :=
  { keyLength := keyLength, qberThreshold := 11 / 100, sampleSize := 10 / 100 }

/-- Go qkd.AliceSession (the Key field is only written at the end of
PerformKeyExchange and is not part of the claims' statements). -/
structure AliceSession where
  bits : List Bool
  bases : List Bool
  qubits : List Qubit
deriving DecidableEq

/-- Go qkd.BobSession. -/
structure BobSession where
  bases : List Bool
  measurements : List MeasurementResult
deriving DecidableEq

/-- Go qkd.SiftedKey. -/
structure SiftedKey where
  aliceKey : List Bool
  bobKey : List Bool
  indices : List ℕ
deriving DecidableEq

/-- Errors of the BB84 pipeline.  The wrap constructors model the
fmt.Errorf("...: %w", err) wrappers in PerformKeyExchange; prepareFailed
and measureFailed model the wrappers inside AliceGenerateQubits and
BobMeasureQubits. -/
inductive BB84Error where
  | prepareFailed (e : BackendError) : BB84Error
  | measureFailed (e : BackendError) : BB84Error
  | basesLengthMismatch : BB84Error
  | siftedKeyEmpty : BB84Error
  | noMatchingBases : BB84Error
  | wrapAlice (e : BB84Error) : BB84Error
  | wrapBob (e : BB84Error) : BB84Error
  | wrapReconciliation (e : BB84Error) : BB84Error
  | wrapQBER (e : BB84Error) : BB84Error
deriving DecidableEq

/-- The Message strings a KeyExchangeResult can carry; each constructor
records the numeric values interpolated into the fmt.Sprintf format. -/
inductive BBMessage where
  | empty : BBMessage
  | insecureQBER (qber qberThreshold : ℚ) : BBMessage
  | insufficientMaterial (got need : ℕ) : BBMessage
  | keyMismatch : BBMessage
  | secureOk (qber : ℚ) : BBMessage
deriving DecidableEq

/-- Go qkd.KeyExchangeResult.  The zero value of the struct has an empty
key, zero lengths, zero QBER, secure false and an empty message. -/
structure KeyExchangeResult where
  key : List ℕ
  rawKeyLength : ℕ
  finalKeyLength : ℕ
  qber : ℚ
  secure : Bool
  message : BBMessage
deriving DecidableEq

/-- Go (*BB84Protocol).AliceGenerateQubits with the
GenerateRandomBits/Bases(4*keyLength) draws passed in: call the backend
and record bits, bases and qubits. -/
def AliceGenerateQubits (backend : Backend) (bits bases : List Bool) :
    Except BB84Error AliceSession :=
  match backend.prepareAndSend bits bases with
  | .error e => .error (.prepareFailed e)
  | .ok qubits => .ok { bits := bits, bases := bases, qubits := qubits }

/-- Go (*BB84Protocol).BobMeasureQubits with the
GenerateRandomBases(len(qubits)) draws passed in. -/
def BobMeasureQubits (backend : Backend) (qubits : List Qubit)
    (bases : List Bool) : Except BB84Error BobSession :=
  match backend.receiveAndMeasure qubits bases with
  | .error e => .error (.measureFailed e)
  | .ok measurements => .ok { bases := bases, measurements := measurements }

/-- Go (*BB84Protocol).BasisReconciliation: require equal basis counts,
then keep exactly the indices where the bases agree, pairing Alice's bit
with Bob's measured bit. -/
def BasisReconciliation (alice : AliceSession) (bob : BobSession) :
    Except BB84Error SiftedKey :=
  if alice.bases.length ≠ bob.bases.length then .error .basesLengthMismatch
  else
    let matched := (List.range alice.bases.length).filter
      (fun i => alice.bases.getD i false = bob.bases.getD i false)
    .ok { aliceKey := matched.map (fun i => alice.bits.getD i false)
          bobKey := matched.map (fun i => (bob.measurements.getD i default).measuredBit)
          indices := matched }

/-- The loop that keeps drawing cryptoRandInt(m) until it has collected
need distinct indices, given the (finite prefix of the) stream of draws;
none when the prefix is exhausted before need distinct values appeared.
The collected list is in first-seen order. -/
def collectDistinct (need : ℕ) : List ℕ → List ℕ → Option (List ℕ)
  | [], acc => if need ≤ acc.length then some acc else none
  | d :: rest, acc =>
      if need ≤ acc.length then some acc
      else collectDistinct need rest (if d ∈ acc then acc else acc ++ [d])

/-- Go (*BB84Protocol).EstimateQBER given the crypto/rand draws: clamp
the sample count into [1, m], sample that many distinct indices, and
return mismatches / sampleCount.  Every draw produced by cryptoRandInt(m)
lies in [0, m); the getD reads are in range on such draws. -/
def EstimateQBER (bb : BB84Protocol) (sifted : SiftedKey) (draws : List ℕ) :
    Option (Except BB84Error ℚ) :=
  if sifted.aliceKey.length = 0 then some (.error .siftedKeyEmpty)
  else
    let m := sifted.aliceKey.length
    let clamped := min (max (goInt ((m : ℚ) * bb.sampleSize)) 1) (m : ℤ)
    let sampleCount := clamped.toNat
    match collectDistinct sampleCount draws [] with
    | none => none
    | some sampledIndices =>
        let errors := (sampledIndices.filter
          (fun idx => sifted.aliceKey.getD idx false ≠ sifted.bobKey.getD idx false)).length
        some (.ok ((errors : ℚ) / (sampleCount : ℚ)))

/-- Go (*BB84Protocol).RemoveSampledBits: drop the sampled positions from
both keys and from the index list. -/
def RemoveSampledBits (sifted : SiftedKey) (sampledIndices : List ℕ) : SiftedKey :=
  let keep := (List.range sifted.aliceKey.length).filter
    (fun i => ¬ i ∈ sampledIndices)
  { aliceKey := keep.map (fun i => sifted.aliceKey.getD i false)
    bobKey := keep.map (fun i => sifted.bobKey.getD i false)
    indices := keep.map (fun i => sifted.indices.getD i 0) }

/-- Step 6 of PerformKeyExchange: draw sampleCount =
int(m * sampleSize) distinct indices (note: without the minimum-1 clamp
used in EstimateQBER) and remove them from the sifted key. -/
def removalStep (bb : BB84Protocol) (sifted : SiftedKey) (draws : List ℕ) :
    Option SiftedKey :=
  let sampleCount := (goInt ((sifted.aliceKey.length : ℚ) * bb.sampleSize)).toNat
  (collectDistinct sampleCount draws []).map (RemoveSampledBits sifted)

/-- Go (*BB84Protocol).PerformKeyExchange, with the randomness passed in:
aliceBits and aliceBases are the GenerateRandomBits/Bases(4*keyLength)
draws, bobBases the GenerateRandomBases(len(qubits)) draws, estDraws and
remDraws the two independent cryptoRandInt streams.  Mirrors the source:
phases 1-3, the empty-sift check, QBER estimation, the security decision
(QBER above threshold is a non-error result), sample removal, the
key-material check, truncation, the equality check, and packing. -/
def PerformKeyExchange (bb : BB84Protocol) (backend : Backend)
    (aliceBits aliceBases bobBases : List Bool)
    (estDraws remDraws : List ℕ) :
    Option (Except BB84Error KeyExchangeResult) :=
  match AliceGenerateQubits backend aliceBits aliceBases with
  | .error e => some (.error (.wrapAlice e))
  | .ok alice =>
    match BobMeasureQubits backend alice.qubits bobBases with
    | .error e => some (.error (.wrapBob e))
    | .ok bob =>
      match BasisReconciliation alice bob with
      | .error e => some (.error (.wrapReconciliation e))
      | .ok sifted =>
        let rawKeyLength := sifted.aliceKey.length
        if rawKeyLength = 0 then some (.error .noMatchingBases)
        else
          match EstimateQBER bb sifted estDraws with
          | none => none
          | some (.error e) => some (.error (.wrapQBER e))
          | some (.ok qber) =>
            if bb.qberThreshold < qber then
              some (.ok { key := [], rawKeyLength := rawKeyLength,
                          finalKeyLength := 0, qber := qber, secure := false,
                          message := .insecureQBER qber bb.qberThreshold })
            else
              match removalStep bb sifted remDraws with
              | none => none
              | some finalSifted =>
                if finalSifted.aliceKey.length < bb.keyLength then
                  some (.ok { key := [], rawKeyLength := rawKeyLength,
                              finalKeyLength := 0, qber := qber, secure := false,
                              message := .insufficientMaterial
                                finalSifted.aliceKey.length bb.keyLength })
                else
                  let aliceFinal := finalSifted.aliceKey.take bb.keyLength
                  let bobFinal := finalSifted.bobKey.take bb.keyLength
                  if aliceFinal ≠ bobFinal then
                    some (.ok { key := [], rawKeyLength := rawKeyLength,
                                finalKeyLength := 0, qber := qber, secure := false,
                                message := .keyMismatch })
                  else
                    some (.ok { key := quantum.BitsToBytes aliceFinal,
                                rawKeyLength := rawKeyLength,
                                finalKeyLength := aliceFinal.length,
                                qber := qber, secure := true,
                                message := .secureOk qber })

/-! ## Session coordinator (SessionManager, src/internal/qkd, and the
models of src/internal/models/qkd/session.go).  Session and key
identifiers (uuid.UUID) are embedded as naturals; the freshly generated
uuid.New() of each call is passed in as a parameter.  Time fields
(CreatedAt, ExpiresAt, GeneratedAt) are not part of any claim below and
are omitted; CompletedAt is kept as the flag completedAtSet.  The
manager's maps are association lists and its mutex is irrelevant to the
single-call claims below. -/

/-- Go qkd.SessionStatus (models/qkd/session.go). -/
inductive SessionStatus where
  | initiating : SessionStatus
  | waitingForBob : SessionStatus
  | active : SessionStatus
  | completed : SessionStatus
  | aborted : SessionStatus
  | failed : SessionStatus
deriving DecidableEq

/-- The Message values a session can hold; constructors carry the numeric
values interpolated into the corresponding Go format strings. -/
inductive SessionMessage where
  | empty : SessionMessage
  | fromResult (m : BBMessage) : SessionMessage
  | fromBB84Error (e : BB84Error) : SessionMessage
  | qberTooHigh (qber qberThreshold : ℚ) : SessionMessage
  | correctionFailed (errorRate : ℚ) : SessionMessage
  | cannotGenerate (secureLength : ℤ) : SessionMessage
  | fromCascadeError (e : crypto.CascadeError) : SessionMessage
  | fromAmplifyError (e : crypto.AmplifyError) : SessionMessage
  | secureGenerated (qber : ℚ) (disclosedBits : ℕ) : SessionMessage
deriving DecidableEq

/-- Go qkd.QKDSession (the claim-relevant fields). -/
structure QKDSession where
  aliceID : String
  bobID : String
  status : SessionStatus
  keyLength : ℕ
  qber : ℚ
  rawKeyLength : ℕ
  finalKeyLength : ℕ
  isSecure : Bool
  message : SessionMessage
  completedAtSet : Bool
deriving DecidableEq

/-- Go qkd.QuantumKey (the claim-relevant fields). -/
structure QuantumKey where
  keyID : ℕ
  sessionID : ℕ
  keyMaterial : List ℕ
  keyLength : ℕ
  isActive : Bool
deriving DecidableEq

/-- The SessionManager's mutable state: the sessions and keys maps. -/
structure SMState where
  sessions : List (ℕ × QKDSession)
  keys : List (ℕ × QuantumKey)
deriving DecidableEq

/-- Errors returned by the SessionManager operations modelled below. -/
inductive SMError where
  | sessionNotFound : SMError
  | sessionNotActive : SMError
  | keyExchangeFailed (e : BB84Error) : SMError
  | notSecure (m : BBMessage) : SMError
  | bb84Failed (e : BB84Error) : SMError
  | qberTooHigh (qber qberThreshold : ℚ) : SMError
  | cascadeFailed (e : crypto.CascadeError) : SMError
  | correctionFailed (errorRate : ℚ) : SMError
  | cannotGenerate (secureLength : ℤ) : SMError
  | amplifyFailed (e : crypto.AmplifyError) : SMError
deriving DecidableEq

/-- The map read sm.sessions[sessionID]. -/
def lookupSession (st : SMState) (sessionID : ℕ) : Option QKDSession :=
  (st.sessions.find? (fun p => p.1 = sessionID)).map (fun p => p.2)

/-- The in-place mutation session.Status = status through the map's
pointer. -/
def setSessionStatus (st : SMState) (sessionID : ℕ) (status : SessionStatus) :
    SMState :=
  { st with
    sessions := st.sessions.map (fun p =>
      if p.1 = sessionID then (p.1, { p.2 with status := status }) else p) }

/-- Go (*SessionManager).updateSessionStatus: when the session exists,
overwrite status, QBER, lengths, security flag and message, and stamp
CompletedAt on the three terminal statuses. -/
def updateSessionStatus (st : SMState) (sessionID : ℕ) (status : SessionStatus)
    (qber : ℚ) (rawKeyLen finalKeyLen : ℕ) (secure : Bool)
    (message : SessionMessage) : SMState :=
  { st with
    sessions := st.sessions.map (fun p =>
      if p.1 = sessionID then
        (p.1,
         { p.2 with
           status := status, qber := qber, rawKeyLength := rawKeyLen,
           finalKeyLength := finalKeyLen, isSecure := secure,
           message := message,
           completedAtSet :=
             if status = .completed ∨ status = .failed ∨ status = .aborted
             then true else p.2.completedAtSet })
      else p) }

/-- Go (*SessionManager).ExecuteKeyExchange(sessionID), with the
backend, the randomness of the underlying PerformKeyExchange call and the
fresh key id passed in.  Looks the session up, requires status Active,
moves to Initiating, runs BB84, then updates the terminal status and
stores the key only for a secure result. -/
def ExecuteKeyExchange (backend : Backend)
    (aliceBits aliceBases bobBases : List Bool) (estDraws remDraws : List ℕ)
    (st : SMState) (sessionID keyID : ℕ) :
    Option (SMState × Except SMError QuantumKey) :=
  match lookupSession st sessionID with
  | none => some (st, .error .sessionNotFound)
  | some session =>
    if session.status ≠ .active then some (st, .error .sessionNotActive)
    else
      let st1 := setSessionStatus st sessionID .initiating
      let bb := NewBB84Protocol session.keyLength
      match PerformKeyExchange bb backend aliceBits aliceBases bobBases
          estDraws remDraws with
      | none => none
      | some (.error e) =>
          some (updateSessionStatus st1 sessionID .failed 0 0 0 false
                  (.fromBB84Error e),
                .error (.keyExchangeFailed e))
      | some (.ok result) =>
          let st2 := updateSessionStatus st1 sessionID .completed result.qber
              result.rawKeyLength result.finalKeyLength result.secure
              (.fromResult result.message)
          if result.secure = false then
            some (st2, .error (.notSecure result.message))
          else
            let quantumKey : QuantumKey :=
              { keyID := keyID, sessionID := sessionID,
                keyMaterial := result.key, keyLength := result.finalKeyLength,
                isActive := true }
            some ({ st2 with keys := st2.keys ++ [(keyID, quantumKey)] },
                  .ok quantumKey)

/-- Go (*SessionManager).ExecuteKeyExchangeWithPostProcessing(sessionID):
BB84 phases run directly (with a 4x oversized protocol), then Cascade
reconciliation, the key-verification check, the secure-length gate and
SHA3-256 privacy amplification over the full sifted Alice key; leakage is
(sampleBits + disclosedBits) / raw length.  The hash family (external
library) and all randomness are passed in as for the functions above.
The panicked and fuelOut amplifier outcomes yield no ordinary return and
are mapped to none (SHA3-256 is a known method and its digests are
nonempty, so neither occurs on real runs). -/
def ExecuteKeyExchangeWithPostProcessing (hf : crypto.HashFamily)
    (backend : Backend) (aliceBits aliceBases bobBases : List Bool)
    (estDraws : List ℕ) (st : SMState) (sessionID keyID : ℕ) :
    Option (SMState × Except SMError QuantumKey) :=
  match lookupSession st sessionID with
  | none => some (st, .error .sessionNotFound)
  | some session =>
    if session.status ≠ .active then some (st, .error .sessionNotActive)
    else
      let st1 := setSessionStatus st sessionID .initiating
      let bb := NewBB84Protocol (session.keyLength * 4)
      match AliceGenerateQubits backend aliceBits aliceBases with
      | .error e =>
          some (updateSessionStatus st1 sessionID .failed 0 0 0 false
                  (.fromBB84Error e), .error (.bb84Failed e))
      | .ok alice =>
      match BobMeasureQubits backend alice.qubits bobBases with
      | .error e =>
          some (updateSessionStatus st1 sessionID .failed 0 0 0 false
                  (.fromBB84Error e), .error (.bb84Failed e))
      | .ok bob =>
      match BasisReconciliation alice bob with
      | .error e =>
          some (updateSessionStatus st1 sessionID .failed 0 0 0 false
                  (.fromBB84Error e), .error (.bb84Failed e))
      | .ok sifted =>
      match EstimateQBER bb sifted estDraws with
      | none => none
      | some (.error e) =>
          some (updateSessionStatus st1 sessionID .failed 0 0 0 false
                  (.fromBB84Error e), .error (.bb84Failed e))
      | some (.ok qber) =>
        if bb.qberThreshold < qber then
          some (updateSessionStatus st1 sessionID .aborted qber
                  sifted.aliceKey.length 0 false
                  (.qberTooHigh qber bb.qberThreshold),
                .error (.qberTooHigh qber bb.qberThreshold))
        else
          match (crypto.NewCascadeCorrector qber).Correct
              sifted.aliceKey sifted.bobKey with
          | .error e =>
              some (updateSessionStatus st1 sessionID .failed qber
                      sifted.aliceKey.length 0 false (.fromCascadeError e),
                    .error (.cascadeFailed e))
          | .ok corrected =>
            let bobCorrected := corrected.1
            let disclosedBits := corrected.2
            let verified := crypto.VerifyKeyCorrectness sifted.aliceKey bobCorrected
            if verified.1 = false then
              some (updateSessionStatus st1 sessionID .failed qber
                      sifted.aliceKey.length 0 false
                      (.correctionFailed verified.2),
                    .error (.correctionFailed verified.2))
            else
              let m := sifted.aliceKey.length
              let sampleBits : ℤ := goInt ((m : ℚ) * bb.sampleSize)
              let totalLeakage : ℚ :=
                ((sampleBits : ℚ) + (disclosedBits : ℚ)) / (m : ℚ)
              let secureLength :=
                crypto.CalculateSecureKeyLength (m : ℤ) qber
                  (disclosedBits : ℤ) 64
              if secureLength < (session.keyLength : ℤ) then
                some (updateSessionStatus st1 sessionID .failed qber m
                        secureLength.toNat false (.cannotGenerate secureLength),
                      .error (.cannotGenerate secureLength))
              else
                match crypto.Amplify hf
                    (crypto.NewPrivacyAmplifier crypto.SHA3_256Method)
                    sifted.aliceKey totalLeakage (session.keyLength : ℤ) with
                | .err e =>
                    some (updateSessionStatus st1 sessionID .failed qber m 0
                            false (.fromAmplifyError e),
                          .error (.amplifyFailed e))
                | .panicked => none
                | .fuelOut => none
                | .ok finalKey =>
                    let st2 := updateSessionStatus st1 sessionID .completed
                        qber m (finalKey.length * 8) true
                        (.secureGenerated qber disclosedBits)
                    let quantumKey : QuantumKey :=
                      { keyID := keyID, sessionID := sessionID,
                        keyMaterial := finalKey,
                        keyLength := finalKey.length * 8, isActive := true }
                    some ({ st2 with keys := st2.keys ++ [(keyID, quantumKey)] },
                          .ok quantumKey)

end qkd

/-! ## Concrete instantiations used to evaluate the theorems

The backends below are concrete implementations of the QuantumBackend
interface (the pipeline is polymorphic in the backend, so any
function-valued instance is a legitimate run); the hash family is a
fixed-digest stand-in used only where a claim is independent of digest
contents. -/

/-- A hash family with constant digests of the correct lengths (32 bytes
for the 256-bit hashes, 64 for the 512-bit ones); used to evaluate
theorems whose statements depend only on digest lengths. -/
def stubHashFamily : crypto.HashFamily :=
  { sha256Dig := fun _ => List.replicate 32 0
    sha512Dig := fun _ => List.replicate 64 0
    sha3of256Dig := fun _ => List.replicate 32 0
    sha3of512Dig := fun _ => List.replicate 64 0 }

namespace qkd

/-- A noiseless backend: qubits carry the prepared bit and basis, and
measuring returns the carried bit (the behaviour of the simulator with
simulateNoise off and matching bases). -/
def noiselessBackend : Backend :=
  { prepareAndSend := fun bits bases =>
      .ok ((bits.zip bases).map (fun p =>
        { classicalValue := p.1, preparationBasis := p.2 }))
    receiveAndMeasure := fun qubits bases =>
      .ok ((qubits.zip bases).map (fun p =>
        { measuredBit := p.1.classicalValue, measurementBasis := p.2 })) }

/-- A fully eavesdropped backend: every measured bit is inverted, a run
in which the channel disturbs every position. -/
def invertingBackend : Backend :=
  { prepareAndSend := fun bits bases =>
      .ok ((bits.zip bases).map (fun p =>
        { classicalValue := p.1, preparationBasis := p.2 }))
    receiveAndMeasure := fun qubits bases =>
      .ok ((qubits.zip bases).map (fun p =>
        { measuredBit := ! p.1.classicalValue, measurementBasis := p.2 })) }

/-- A backend that flips exactly the first measured bit: a run with a
single channel error at position 0. -/
def flipFirstBackend : Backend :=
  { prepareAndSend := fun bits bases =>
      .ok ((bits.zip bases).map (fun p =>
        { classicalValue := p.1, preparationBasis := p.2 }))
    receiveAndMeasure := fun qubits bases =>
      .ok (((qubits.zip bases).enum).map (fun p =>
        { measuredBit := xor p.2.1.classicalValue (decide (p.1 = 0))
          measurementBasis := p.2.2 })) }

/-- An Active session requesting keyLength bits, as JoinSession leaves
it. -/
def activeSession (keyLength : ℕ) : QKDSession :=
  { aliceID := "alice-1", bobID := "bob-1", status := .active,
    keyLength := keyLength, qber := 0, rawKeyLength := 0,
    finalKeyLength := 0, isSecure := false, message := .empty,
    completedAtSet := false }

/-- Bob's bases for the Claim C4 run: 32 transmissions of which exactly
the 8 positions divisible by 4 match Alice's all-Rectilinear bases. -/
def quarterMatchBases : List Bool :=
  (List.range 32).map (fun i => decide (i % 4 ≠ 0))

/-- A 20-position sifted key used to evaluate the removal step. -/
def sifted20 : SiftedKey :=
  { aliceKey := List.replicate 20 false
    bobKey := List.replicate 20 false
    indices := List.range 20 }

/-- An 8-position sifted key (with default sampleSize 0.10, the removal
step's sample count is int(8 · 0.10) = 0). -/
def sifted8 : SiftedKey :=
  { aliceKey := List.replicate 8 false
    bobKey := List.replicate 8 false
    indices := List.range 8 }

/-- Alice's side of a 256-transmission all-zero, all-Rectilinear run. -/
def alice256 : AliceSession :=
  { bits := List.replicate 256 false, bases := List.replicate 256 false,
    qubits := List.replicate 256
      { classicalValue := false, preparationBasis := false } }

/-- Bob's side of that run through flipFirstBackend: Rectilinear bases
everywhere and a single measurement error at position 0. -/
def bob256 : BobSession :=
  { bases := List.replicate 256 false,
    measurements := (List.range 256).map (fun i =>
      { measuredBit := decide (i = 0), measurementBasis := false }) }

/-- The sifted key of that run: all 256 positions match, with one
discrepancy at position 0. -/
def sifted256 : SiftedKey :=
  { aliceKey := List.replicate 256 false
    bobKey := (List.range 256).map (fun i => decide (i = 0))
    indices := List.range 256 }

end qkd

/-! # Theorems

All definitions are above; everything from here on is proof.  Batteries
marks the arithmetic of Rat irreducible; the local attribute below
restores definitional unfolding so that closed rational computations can
be checked by the kernel via decide. -/

section

attribute [local semireducible] Rat.add Rat.mul Rat.sub Rat.inv

namespace quantum

theorem getD_set_self {α : Type} (l : List α) (p : ℕ) (v d : α) (hp : p < l.length) :
    (l.set p v).getD p d = v := by
  induction l generalizing p with
  | nil => simp at hp
  | cons a t ih =>
    cases p with
    | zero => simp
    | succ q => simpa using ih q (by simpa using hp)

theorem getD_set_ne {α : Type} (l : List α) (p : ℕ) (v d : α) (j : ℕ) (hj : j ≠ p) :
    (l.set p v).getD j d = l.getD j d := by
  induction l generalizing p j with
  | nil => simp
  | cons a t ih =>
    cases p with
    | zero => cases j with
      | zero => exact absurd rfl hj
      | succ i => simp
    | succ q => cases j with
      | zero => simp
      | succ i => simpa using ih q i (by omega)

theorem testBit_two_pow_decide (n m : ℕ) : (2 ^ n).testBit m = decide (n = m) := by
  rcases eq_or_ne n m with h | h
  · subst h; simp [Nat.testBit_two_pow_self]
  · simp [Nat.testBit_two_pow_of_ne h, h]

theorem testBit_setBitOr (bytes : List ℕ) (p q j k : ℕ) (hj : j < bytes.length) :
    ((setBitOr bytes p q).getD j 0).testBit k
      = ((bytes.getD j 0).testBit k || (decide (j = p) && decide (k = q))) := by
  unfold setBitOr
  rcases eq_or_ne j p with h | h
  · subst h
    rw [getD_set_self _ _ _ _ hj, Nat.testBit_lor]
    have : (1 <<< q) = 2 ^ q := by simp [Nat.shiftLeft_eq]
    rw [this, testBit_two_pow_decide]
    simp [eq_comm]
  · rw [getD_set_ne _ _ _ _ _ h]
    simp [h]

theorem length_bitsToBytesLoop (bits : List Bool) (i : ℕ) (bytes : List ℕ) :
    (bitsToBytesLoop bits i bytes).length = bytes.length := by
  induction bits generalizing i bytes with
  | nil => rfl
  | cons b rest ih =>
    unfold bitsToBytesLoop
    rw [ih]
    cases b <;> simp [setBitOr]

theorem bitsToBytesLoop_testBit (bits : List Bool) (i : ℕ) (bytes : List ℕ)
    (j k : ℕ) (hj : j < bytes.length) (hk : k < 8) :
    ((bitsToBytesLoop bits i bytes).getD j 0).testBit k
      = ((bytes.getD j 0).testBit k
          || (decide (i ≤ 8 * j + (7 - k)) && bits.getD (8 * j + (7 - k) - i) false)) := by
  induction bits generalizing i bytes with
  | nil => simp [bitsToBytesLoop]
  | cons b rest ih =>
    unfold bitsToBytesLoop
    have hlen : ∀ bytes2 : List ℕ, bytes2 =
        (if b then setBitOr bytes (i / 8) (7 - i % 8) else bytes) →
        bytes2.length = bytes.length := by
      intro bytes2 h2
      subst h2
      cases b <;> simp [setBitOr]
    set a := 8 * j + (7 - k) with ha
    cases b with
    | false =>
      simp only [if_neg (by simp : ¬ (false = true))]
      rw [ih (i + 1) bytes hj]
      rcases lt_trichotomy a i with hlt | heq | hgt
      · have h1 : ¬ (i ≤ a) := by omega
        have h2 : ¬ (i + 1 ≤ a) := by omega
        simp [h1, h2]
      · subst heq
        have h2 : ¬ (a + 1 ≤ a) := by omega
        have h3 : a - a = 0 := by omega
        simp [h2, h3]
      · have h1 : i ≤ a := by omega
        have h2 : i + 1 ≤ a := by omega
        have h3 : a - i = (a - (i + 1)) + 1 := by omega
        simp [h1, h2, h3]
    | true =>
      rw [show (if true = true then setBitOr bytes (i / 8) (7 - i % 8) else bytes)
            = setBitOr bytes (i / 8) (7 - i % 8) from if_pos rfl]
      rw [ih (i + 1) _ (by simpa [setBitOr] using hj)]
      rw [testBit_setBitOr bytes _ _ j k hj]
      have hdec : (decide (j = i / 8) && decide (k = 7 - i % 8)) = decide (a = i) := by
        have : ((j = i / 8) ∧ (k = 7 - i % 8)) ↔ (a = i) := by
          rw [ha]; omega
        rcases em ((j = i / 8) ∧ (k = 7 - i % 8)) with h | h
        · simp [h.1, h.2, this.mp h]
        · have h2 : ¬ (a = i) := fun hh => h (this.mpr hh)
          simp only [decide_eq_true_eq] at *
          rcases em (j = i / 8) with hja | hja
          · have : ¬ (k = 7 - i % 8) := fun hh => h ⟨hja, hh⟩
            simp [this, h2]
          · simp [hja, h2]
      rw [hdec]
      rcases lt_trichotomy a i with hlt | heq | hgt
      · have h1 : ¬ (i ≤ a) := by omega
        have h2 : ¬ (i + 1 ≤ a) := by omega
        have h3 : ¬ (a = i) := by omega
        simp [h1, h2, h3]
      · subst heq
        have h2 : ¬ (a + 1 ≤ a) := by omega
        have h3 : a - a = 0 := by omega
        simp [h2, h3]
      · have h1 : i ≤ a := by omega
        have h2 : i + 1 ≤ a := by omega
        have h3 : ¬ (a = i) := by omega
        have h4 : a - i = (a - (i + 1)) + 1 := by omega
        simp [h1, h2, h3, h4, Bool.or_assoc]

theorem length_BitsToBytes (bits : List Bool) :
    (BitsToBytes bits).length = (bits.length + 7) / 8 := by
  unfold BitsToBytes
  rw [length_bitsToBytesLoop]
  simp

theorem BitsToBytes_testBit (bits : List Bool) (j k : ℕ)
    (hj : j < (bits.length + 7) / 8) (hk : k < 8) :
    ((BitsToBytes bits).getD j 0).testBit k = bits.getD (8 * j + (7 - k)) false := by
  unfold BitsToBytes
  rw [bitsToBytesLoop_testBit bits 0 _ j k (by simpa using hj) hk]
  simp

theorem bytesToBitsAux_eq_map (bytes : List ℕ) (idxs : List ℕ)
    (h : ∀ i ∈ idxs, i / 8 < bytes.length) :
    bytesToBitsAux bytes idxs
      = some (idxs.map (fun i =>
          decide (bytes.getD (i / 8) 0 &&& 1 <<< (7 - i % 8) ≠ 0))) := by
  induction idxs with
  | nil => rfl
  | cons i rest ih =>
    have hi : i / 8 < bytes.length := h i (by simp)
    unfold bytesToBitsAux
    rw [dif_pos hi, ih (fun x hx => h x (by simp [hx]))]
    simp [List.get_eq_getElem, List.getD, List.getElem?_eq_getElem hi]

theorem bytesToBitsAux_isSome (bytes : List ℕ) (idxs : List ℕ) :
    (bytesToBitsAux bytes idxs).isSome = true ↔ ∀ i ∈ idxs, i / 8 < bytes.length := by
  induction idxs with
  | nil => simp [bytesToBitsAux]
  | cons i rest ih =>
    unfold bytesToBitsAux
    rcases em (i / 8 < bytes.length) with hi | hi
    · rw [dif_pos hi]
      rcases hrest : bytesToBitsAux bytes rest with _ | bs
      · simp only [hrest] at ih
        simp only [Option.isSome_none, Bool.false_eq_true, false_iff] at ih ⊢
        push_neg at ih ⊢
        obtain ⟨x, hx, hxl⟩ := ih
        exact ⟨x, by simp [hx], hxl⟩
      · simp only [hrest] at ih
        simp only [Option.isSome_some, true_iff] at ih
        simp only [Option.isSome_some, true_iff]
        intro x hx
        rcases List.mem_cons.mp hx with h1 | h1
        · subst h1; exact hi
        · exact ih x h1
    · rw [dif_neg hi]
      simp only [Option.isSome_none, Bool.false_eq_true, false_iff]
      push_neg
      exact ⟨i, by simp, by omega⟩

theorem and_two_pow_ne_zero (x k : ℕ) : (x &&& 2 ^ k ≠ 0) ↔ x.testBit k = true := by
  rw [Nat.and_two_pow]
  cases h : x.testBit k <;> simp [h]

end quantum

/-- Claim C7: for every sequence of bits, converting to bytes and back is
the identity: BytesToBits(BitsToBytes(b), len(b)) = b (as a non-panicking
some).  In the embedding, bits are Bools, so every modelled bit value is
0 or 1, matching the claim's hypothesis. -/
theorem claim_C7_bits_bytes_roundtrip (b : List Bool) :
    quantum.BytesToBits (quantum.BitsToBytes b) (b.length : ℤ) = some b := by
  unfold quantum.BytesToBits
  rw [if_neg (by omega)]
  have hlen := quantum.length_BitsToBytes b
  have htoNat : ((b.length : ℤ)).toNat = b.length := by omega
  rw [htoNat]
  rw [quantum.bytesToBitsAux_eq_map _ _ (by
    intro i hi
    rw [hlen]
    have : i < b.length := List.mem_range.mp hi
    omega)]
  congr 1
  apply List.ext_getElem
  · simp
  · intro i h1 h2
    simp only [List.getElem_map, List.getElem_range]
    have hi : i < b.length := by simpa using h1
    show decide ((quantum.BitsToBytes b).getD (i / 8) 0 &&& 1 <<< (7 - i % 8) ≠ 0)
        = b[i]
    have hshift : (1 : ℕ) <<< (7 - i % 8) = 2 ^ (7 - i % 8) := by
      simp [Nat.shiftLeft_eq]
    rw [hshift]
    have htb := quantum.BitsToBytes_testBit b (i / 8) (7 - i % 8)
      (by omega) (by omega)
    have hidx : 8 * (i / 8) + (7 - (7 - i % 8)) = i := by omega
    rw [hidx] at htb
    have hgd : b.getD i false = b[i] := List.getD_eq_getElem b false hi
    have key : ((quantum.BitsToBytes b).getD (i / 8) 0).testBit (7 - i % 8) = b[i] := by
      rw [htb, hgd]
    have hdec : decide ((quantum.BitsToBytes b).getD (i / 8) 0 &&& 2 ^ (7 - i % 8) ≠ 0)
        = ((quantum.BitsToBytes b).getD (i / 8) 0).testBit (7 - i % 8) := by
      rcases h2 : ((quantum.BitsToBytes b).getD (i / 8) 0).testBit (7 - i % 8) with _ | _
      · apply decide_eq_false
        intro hne
        have h3 := (quantum.and_two_pow_ne_zero _ _).mp hne
        rw [h2] at h3
        exact absurd h3 (by simp)
      · exact decide_eq_true ((quantum.and_two_pow_ne_zero _ _).mpr h2)
    rw [hdec, key]

/-- Claim C10, counterexample: the claim states BytesToBits is panic-free
exactly when bitLength ≤ 8·len(bytes); at bytes = [] and bitLength = -1
the stated bound holds, yet the call panics (make([]Bit, -1) is a
make-with-negative-length runtime panic), so the claimed equivalence is
false as stated. -/
theorem claim_C10_counterexample :
    quantum.BytesToBits [] (-1) = none
      ∧ (-1 : ℤ) ≤ 8 * (([] : List ℕ).length : ℤ) := by
  constructor
  · rfl
  · decide

/-- Claim C10, amended: BytesToBits(bytes, bitLength) is total (panic
free) exactly when 0 ≤ bitLength AND bitLength ≤ 8·len(bytes); for
bitLength above 8·len(bytes) the unchecked bytes[i/8] read panics with an
index out of range, and for negative bitLength the make([]Bit, bitLength)
allocation panics, so every caller must guarantee 0 ≤ bitLength ≤
8·len(bytes). -/
theorem claim_C10_amended (bytes : List ℕ) (bitLength : ℤ) :
    (quantum.BytesToBits bytes bitLength).isSome = true
      ↔ 0 ≤ bitLength ∧ bitLength ≤ 8 * (bytes.length : ℤ) := by
  unfold quantum.BytesToBits
  rcases em (bitLength < 0) with hneg | hneg
  · rw [if_pos hneg]
    simp only [Option.isSome_none, Bool.false_eq_true, false_iff]
    omega
  · rw [if_neg hneg]
    rw [quantum.bytesToBitsAux_isSome]
    constructor
    · intro h
      refine ⟨by omega, ?_⟩
      by_contra hgt
      have h8 : 8 * bytes.length < bitLength.toNat := by omega
      have := h (8 * bytes.length) (List.mem_range.mpr h8)
      omega
    · intro ⟨h0, hle⟩ i hi
      have : i < bitLength.toNat := List.mem_range.mp hi
      omega

/-- Claim C2: the claim states CalculateSecureKeyLength(L, 0.5, d, s) = 0
for every L, d, s, because the binary entropy at QBER 0.5 is maximal.
In the code, binaryEntropy(0.5) is computed with the hand-rolled
math_log, which gives 421/405 · (1/ln 2) · ... ≈ 0.9997936 instead of 1;
for L = 10000, d = 0, s = 1 the function returns 2 and for L = 400000,
d = 0, s = 64 (the standard security parameter) it returns 19 — both
nonzero, refuting the claim.  The margin (the Shannon term falls short of
L by about 2·10⁻⁴·L) is eleven orders of magnitude above float64
rounding, so the exact-rational evaluation decides the same branch the Go
float64 computation does. -/
theorem claim_C2_failing_eval :
    crypto.CalculateSecureKeyLength 10000 (1 / 2) 0 1 = 2
      ∧ crypto.CalculateSecureKeyLength 400000 (1 / 2) 0 64 = 19 := by
  constructor
  · decide
  · decide

theorem goInt_of_nonneg (q : ℚ) (h : 0 ≤ q) : goInt q = Int.floor q := by
  unfold goInt
  rw [if_neg (not_lt.mpr h)]

namespace crypto

theorem amplifyLoop_ok_length (hf : HashFamily) (pa : PrivacyAmplifier)
    (keyBytes : List ℕ) (t : ℕ) :
    ∀ (fuel : ℕ) (acc : List ℕ) (c : ℕ) (fk : List ℕ),
      amplifyLoop hf pa keyBytes t fuel acc c = .ok fk → t ≤ fk.length * 8 := by
  intro fuel
  induction fuel with
  | zero =>
    intro acc c fk h
    unfold amplifyLoop at h
    rcases em (acc.length * 8 < t) with hlt | hlt
    · rw [if_pos hlt] at h; cases h
    · rw [if_neg hlt] at h
      injection h with h2
      subst h2
      omega
  | succ n ih =>
    intro acc c fk h
    unfold amplifyLoop at h
    rcases em (acc.length * 8 < t) with hlt | hlt
    · rw [if_pos hlt] at h
      rcases hg : getHasher hf pa with _ | dig
      · rw [hg] at h; cases h
      · rw [hg] at h
        exact ih _ _ _ h
    · rw [if_neg hlt] at h
      injection h with h2
      subst h2
      omega

theorem amplifyLoop_ne_err (hf : HashFamily) (pa : PrivacyAmplifier)
    (keyBytes : List ℕ) (t : ℕ) :
    ∀ (fuel : ℕ) (acc : List ℕ) (c : ℕ) (e : AmplifyError),
      amplifyLoop hf pa keyBytes t fuel acc c ≠ .err e := by
  intro fuel
  induction fuel with
  | zero =>
    intro acc c e h
    unfold amplifyLoop at h
    rcases em (acc.length * 8 < t) with hlt | hlt
    · rw [if_pos hlt] at h; cases h
    · rw [if_neg hlt] at h; cases h
  | succ n ih =>
    intro acc c e h
    unfold amplifyLoop at h
    rcases em (acc.length * 8 < t) with hlt | hlt
    · rw [if_pos hlt] at h
      rcases hg : getHasher hf pa with _ | dig
      · rw [hg] at h; cases h
      · rw [hg] at h
        exact ih _ _ _ h
    · rw [if_neg hlt] at h; cases h

theorem amplifyLoop_no_panic (hf : HashFamily) (pa : PrivacyAmplifier)
    (keyBytes : List ℕ) (t : ℕ) (dig : List ℕ → List ℕ)
    (hg : getHasher hf pa = some dig) :
    ∀ (fuel : ℕ) (acc : List ℕ) (c : ℕ),
      amplifyLoop hf pa keyBytes t fuel acc c ≠ .panicked := by
  intro fuel
  induction fuel with
  | zero =>
    intro acc c h
    unfold amplifyLoop at h
    rcases em (acc.length * 8 < t) with hlt | hlt
    · rw [if_pos hlt] at h; cases h
    · rw [if_neg hlt] at h; cases h
  | succ n ih =>
    intro acc c h
    unfold amplifyLoop at h
    rcases em (acc.length * 8 < t) with hlt | hlt
    · rw [if_pos hlt, hg] at h
      exact ih _ _ h
    · rw [if_neg hlt] at h; cases h

theorem amplifyLoop_no_fuelOut (hf : HashFamily) (pa : PrivacyAmplifier)
    (keyBytes : List ℕ) (t : ℕ) (dig : List ℕ → List ℕ)
    (hg : getHasher hf pa = some dig)
    (hd : ∀ input, 1 ≤ (dig input).length) :
    ∀ (fuel : ℕ) (acc : List ℕ) (c : ℕ), t ≤ acc.length + fuel →
      amplifyLoop hf pa keyBytes t fuel acc c ≠ .fuelOut := by
  intro fuel
  induction fuel with
  | zero =>
    intro acc c hone h
    unfold amplifyLoop at h
    rcases em (acc.length * 8 < t) with hlt | hlt
    · omega
    · rw [if_neg hlt] at h; cases h
  | succ n ih =>
    intro acc c hone h
    unfold amplifyLoop at h
    rcases em (acc.length * 8 < t) with hlt | hlt
    · rw [if_pos hlt, hg] at h
      refine ih _ _ ?_ h
      have := hd (keyBytes ++ counterBytes c)
      simp only [List.length_append]
      omega
    · rw [if_neg hlt] at h; cases h

end crypto

/-- Claim C6: for a nonempty key of length L, leakage in [0, 1] and a
target t ≥ 1, Amplify fails with the InsufficientSecurity error carrying
both the target and the computed maximum L - ⌊leakage·L⌋ - 64 exactly
when L - ⌊leakage·L⌋ - 64 < t, and every successful call returns exactly
⌈t/8⌉ = (t+7)/8 bytes. -/
theorem claim_C6_amplify_gate_and_length (hf : crypto.HashFamily)
    (pa : crypto.PrivacyAmplifier) (key : List Bool) (leakage : ℚ) (t : ℤ)
    (hkey : key ≠ []) (ht : 1 ≤ t) (hleak0 : 0 ≤ leakage) :
    (crypto.Amplify hf pa key leakage t
        = .err (.insufficientSecurity t
            ((key.length : ℤ) - Int.floor (leakage * (key.length : ℚ)) - 64))
      ↔ (key.length : ℤ) - Int.floor (leakage * (key.length : ℚ)) - 64 < t)
    ∧ ∀ out, crypto.Amplify hf pa key leakage t = .ok out →
        out.length = (t.toNat + 7) / 8 := by
  have hlen : key.length ≠ 0 := by
    intro h
    exact hkey (List.length_eq_zero.mp h)
  have hfloor : goInt (leakage * (key.length : ℚ)) =
      Int.floor (leakage * (key.length : ℚ)) :=
    goInt_of_nonneg _ (by positivity)
  simp only [crypto.Amplify]
  rw [if_neg hlen, if_neg (by omega), hfloor]
  constructor
  · rcases em ((key.length : ℤ) - Int.floor (leakage * (key.length : ℚ)) - 64 < t)
      with hgate | hgate
    · rw [if_pos hgate]
      simp [hgate]
    · rw [if_neg hgate]
      constructor
      · intro h
        rcases hloop : crypto.amplifyLoop hf pa (quantum.BitsToBytes key)
            t.toNat t.toNat [] 0 with fk | e | _ | _ <;> rw [hloop] at h
        · cases h
        · exact absurd hloop (crypto.amplifyLoop_ne_err hf pa _ _ _ _ _ _)
        · cases h
        · cases h
      · intro h
        exact absurd h hgate
  · intro out h
    rcases em ((key.length : ℤ) - Int.floor (leakage * (key.length : ℚ)) - 64 < t)
      with hgate | hgate
    · rw [if_pos hgate] at h
      cases h
    · rw [if_neg hgate] at h
      rcases hloop : crypto.amplifyLoop hf pa (quantum.BitsToBytes key)
          t.toNat t.toNat [] 0 with fk | e | _ | _ <;> rw [hloop] at h
      · have hfk := crypto.amplifyLoop_ok_length hf pa (quantum.BitsToBytes key)
          t.toNat t.toNat [] 0 fk hloop
        injection h with h2
        subst h2
        rcases em ((t.toNat + 7) / 8 < fk.length) with hcmp | hcmp
        · rw [if_pos hcmp]
          simp only [List.length_take]
          omega
        · rw [if_neg hcmp]
          omega
      · cases h
      · cases h
      · cases h

/-- Claim C6, evaluated: a 75-bit key with zero leakage and target 10
passes the gate (75 - 0 - 64 = 11 ≥ 10), succeeds, and returns exactly
⌈10/8⌉ = 2 bytes. -/
theorem claim_C6_witness :
    crypto.Amplify stubHashFamily
        (crypto.NewPrivacyAmplifier crypto.SHA3_256Method)
        (List.replicate 75 false) 0 10 = .ok [0, 0]
      ∧ ([0, 0] : List ℕ).length = (((10 : ℤ)).toNat + 7) / 8 := by
  have h := claim_C6_amplify_gate_and_length stubHashFamily
    (crypto.NewPrivacyAmplifier crypto.SHA3_256Method)
    (List.replicate 75 false) 0 10 (by decide) (by decide) (by decide)
  have heval : crypto.Amplify stubHashFamily
      (crypto.NewPrivacyAmplifier crypto.SHA3_256Method)
      (List.replicate 75 false) 0 10 = .ok [0, 0] := by decide
  exact ⟨heval, h.2 [0, 0] heval⟩

/-- Claim C9: Amplify never panics when the configured method is one of
the four defined constants, and for any other method string every call
that reaches the expansion loop (nonempty key, positive target, security
gate passed) panics — the getHasher error is discarded and Write is
called on the nil hash interface — instead of returning the
unknown-method error. -/
theorem claim_C9_amplify_panic_condition (hf : crypto.HashFamily)
    (pa : crypto.PrivacyAmplifier) (key : List Bool) (leakage : ℚ) (t : ℤ) :
    ((pa.method = crypto.SHA256Method ∨ pa.method = crypto.SHA512Method
        ∨ pa.method = crypto.SHA3_256Method ∨ pa.method = crypto.SHA3_512Method) →
      crypto.Amplify hf pa key leakage t ≠ .panicked)
    ∧ (¬(pa.method = crypto.SHA256Method ∨ pa.method = crypto.SHA512Method
          ∨ pa.method = crypto.SHA3_256Method ∨ pa.method = crypto.SHA3_512Method) →
        key ≠ [] → 1 ≤ t →
        ¬((key.length : ℤ) - goInt (leakage * (key.length : ℚ)) - 64 < t) →
        crypto.Amplify hf pa key leakage t = .panicked) := by
  constructor
  · intro hvalid h
    have hsome : ∃ dig, crypto.getHasher hf pa = some dig := by
      unfold crypto.getHasher
      rcases hvalid with h1 | h1 | h1 | h1 <;> rw [h1] <;> simp [crypto.SHA256Method,
        crypto.SHA512Method, crypto.SHA3_256Method, crypto.SHA3_512Method]
    obtain ⟨dig, hdig⟩ := hsome
    simp only [crypto.Amplify] at h
    rcases em (key.length = 0) with h0 | h0
    · rw [if_pos h0] at h; cases h
    · rw [if_neg h0] at h
      rcases em (t ≤ 0) with h1 | h1
      · rw [if_pos h1] at h; cases h
      · rw [if_neg h1] at h
        rcases em ((key.length : ℤ) - goInt (leakage * (key.length : ℚ)) - 64 < t)
          with h2 | h2
        · rw [if_pos h2] at h; cases h
        · rw [if_neg h2] at h
          rcases hloop : crypto.amplifyLoop hf pa (quantum.BitsToBytes key)
              t.toNat t.toNat [] 0 with fk | e | _ | _ <;> rw [hloop] at h
          · cases h
          · cases h
          · exact crypto.amplifyLoop_no_panic hf pa _ _ dig hdig _ _ _ hloop
          · cases h
  · intro hbad hkey ht hgate
    have hnone : crypto.getHasher hf pa = none := by
      unfold crypto.getHasher
      push_neg at hbad
      rw [if_neg hbad.1, if_neg hbad.2.1, if_neg hbad.2.2.1, if_neg hbad.2.2.2]
    have hlen : key.length ≠ 0 := by
      intro h
      exact hkey (List.length_eq_zero.mp h)
    simp only [crypto.Amplify]
    rw [if_neg hlen, if_neg (by omega), if_neg hgate]
    have htN : ∃ n, t.toNat = n + 1 := ⟨t.toNat - 1, by omega⟩
    obtain ⟨n, hn⟩ := htN
    rw [hn]
    unfold crypto.amplifyLoop
    rw [if_pos (by simp : ([] : List ℕ).length * 8 < n + 1), hnone]

/-- Claim C9, evaluated: the unknown method MD5 panics on a call that
passes the gate, while SHA3-256 on the same arguments does not panic. -/
theorem claim_C9_witness :
    crypto.Amplify stubHashFamily (crypto.NewPrivacyAmplifier "MD5")
        (List.replicate 75 false) 0 10 = .panicked
      ∧ crypto.Amplify stubHashFamily
          (crypto.NewPrivacyAmplifier crypto.SHA3_256Method)
          (List.replicate 75 false) 0 10 ≠ .panicked := by
  constructor
  · exact (claim_C9_amplify_panic_condition stubHashFamily
      (crypto.NewPrivacyAmplifier "MD5") (List.replicate 75 false) 0 10).2
      (by decide) (by decide) (by decide) (by decide)
  · exact (claim_C9_amplify_panic_condition stubHashFamily
      (crypto.NewPrivacyAmplifier crypto.SHA3_256Method)
      (List.replicate 75 false) 0 10).1 (by decide)

namespace crypto

theorem foldl_xor_init (l : List Bool) :
    ∀ a, l.foldl (fun p b => xor p b) a
      = xor a (l.foldl (fun p b => xor p b) false) := by
  induction l with
  | nil => intro a; simp
  | cons b t ih =>
    intro a
    simp only [List.foldl_cons]
    rw [ih (xor a b), ih (xor false b)]
    cases a <;> cases b <;> cases t.foldl (fun p b => xor p b) false <;> rfl

theorem parity_cons (b : Bool) (t : List Bool) :
    CalculateParity (b :: t) = xor b (CalculateParity t) := by
  unfold CalculateParity
  simp only [List.foldl_cons]
  rw [foldl_xor_init t (xor false b)]
  cases b <;> simp

theorem parity_flip_cell (l : List Bool) :
    ∀ i, i < l.length →
      CalculateParity (flipAt l i) = ! CalculateParity l := by
  induction l with
  | nil => intro i hi; simp at hi
  | cons b t ih =>
    intro i hi
    cases i with
    | zero =>
      show CalculateParity ((b :: t).set 0 (! (b :: t).getD 0 false)) = _
      simp only [List.set_cons_zero, List.getD_cons_zero]
      rw [parity_cons, parity_cons]
      cases b <;> cases CalculateParity t <;> simp
    | succ n =>
      show CalculateParity ((b :: t).set (n + 1) (! (b :: t).getD (n + 1) false)) = _
      simp only [List.set_cons_succ, List.getD_cons_succ]
      rw [parity_cons]
      have h2 : CalculateParity (flipAt t n) = ! CalculateParity t :=
        ih n (by simpa using hi)
      unfold flipAt at h2
      rw [h2, parity_cons]
      cases b <;> cases CalculateParity t <;> simp

theorem length_flipAt (l : List Bool) (i : ℕ) : (flipAt l i).length = l.length := by
  simp [flipAt]

theorem set_getD_self (l : List Bool) :
    ∀ i, i < l.length → l.set i (l.getD i false) = l := by
  induction l with
  | nil => intro i hi; simp at hi
  | cons b t ih =>
    intro i hi
    cases i with
    | zero => simp
    | succ n => simpa using ih n (by simpa using hi)

theorem flipAt_flipAt (l : List Bool) (j : ℕ) (hj : j < l.length) :
    flipAt (flipAt l j) j = l := by
  unfold flipAt
  rw [quantum.getD_set_self _ _ _ _ (by simpa using hj), List.set_set, Bool.not_not,
    set_getD_self l j hj]

theorem length_goSlice (l : List Bool) (s e : ℕ) :
    (goSlice l s e).length = min (e - s) (l.length - s) := by
  simp [goSlice]

theorem getElem_goSlice (l : List Bool) (s e k : ℕ)
    (h : k < (goSlice l s e).length) (hb : s + k < l.length) :
    (goSlice l s e)[k] = l[s + k] := by
  unfold goSlice
  rw [List.getElem_take, List.getElem_drop]

theorem goSlice_set_outside (l : List Bool) (j : ℕ) (v : Bool) (s e : ℕ)
    (h : j < s ∨ e ≤ j) : goSlice (l.set j v) s e = goSlice l s e := by
  apply List.ext_getElem
  · simp [goSlice]
  · intro k h1 h2
    rw [getElem_goSlice _ _ _ _ h1 (by rw [List.length_set]; simp [goSlice] at h1; omega),
      getElem_goSlice _ _ _ _ h2 (by simp [goSlice] at h2; omega)]
    have hk : k < e - s := by
      have := (length_goSlice (l.set j v) s e) ▸ h1
      simp at this
      omega
    rw [List.getElem_set]
    rw [if_neg (by omega)]

theorem goSlice_flipAt_inside (l : List Bool) (j s e : ℕ)
    (hs : s ≤ j) (he : j < e) (hj : j < l.length) (hel : e ≤ l.length) :
    goSlice (flipAt l j) s e = flipAt (goSlice l s e) (j - s) := by
  have hslice : (goSlice l s e).length = e - s := by
    rw [length_goSlice]
    omega
  have hjs : j - s < (goSlice l s e).length := by omega
  have hgd : (goSlice l s e).getD (j - s) false = l.getD j false := by
    rw [List.getD_eq_getElem _ _ hjs, getElem_goSlice _ _ _ _ hjs (by omega),
      List.getD_eq_getElem _ _ hj]
    congr 1
    omega
  apply List.ext_getElem
  · simp [goSlice, flipAt]
  · intro k h1 h2
    have hk : k < e - s := by
      have h3 := (length_goSlice (flipAt l j) s e) ▸ h1
      rw [length_flipAt] at h3
      omega
    rw [getElem_goSlice _ _ _ _ h1 (by rw [length_flipAt]; omega)]
    have h2b : k < (goSlice l s e).length := by
      rw [length_flipAt] at h2
      exact h2
    unfold flipAt
    rw [List.getElem_set, List.getElem_set]
    rcases em (j = s + k) with hcase | hcase
    · rw [if_pos hcase, if_pos (by omega), hgd]
    · rw [if_neg hcase, if_neg (by omega), getElem_goSlice _ _ _ _ h2b (by omega)]

theorem parity_goSlice_flip_inside (l : List Bool) (j s e : ℕ)
    (hs : s ≤ j) (he : j < e) (hj : j < l.length) (hel : e ≤ l.length) :
    CalculateParity (goSlice (flipAt l j) s e)
      = ! CalculateParity (goSlice l s e) := by
  rw [goSlice_flipAt_inside l j s e hs he hj hel]
  apply parity_flip_cell
  rw [length_goSlice]
  omega

theorem parity_goSlice_flip_outside (l : List Bool) (j s e : ℕ)
    (h : j < s ∨ e ≤ j) :
    CalculateParity (goSlice (flipAt l j) s e) = CalculateParity (goSlice l s e) := by
  unfold flipAt
  rw [goSlice_set_outside l j _ s e h]

theorem binarySearchGo_flip (l : List Bool) (j : ℕ) (hj : j < l.length) :
    ∀ (fuel s e : ℕ), e - s ≤ fuel → s ≤ j → j < e → e ≤ l.length →
      (binarySearchGo l (flipAt l j) fuel s e).1 = j := by
  intro fuel
  induction fuel with
  | zero => intro s e h1 h2 h3 h4; omega
  | succ n ih =>
    intro s e h1 h2 h3 h4
    unfold binarySearchGo
    rcases em (s + 1 < e) with hcase | hcase
    · rw [if_pos hcase]
      have hmid1 : s < (s + e) / 2 := by omega
      have hmid2 : (s + e) / 2 < e := by omega
      rcases em (j < (s + e) / 2) with hhalf | hhalf
      · have hdiff : CalculateParity (goSlice (flipAt l j) s ((s + e) / 2))
            = ! CalculateParity (goSlice l s ((s + e) / 2)) :=
          parity_goSlice_flip_inside l j s _ h2 hhalf hj (by omega)
        rw [hdiff]
        rw [if_neg (by cases CalculateParity (goSlice l s ((s + e) / 2)) <;> simp)]
        exact ih s ((s + e) / 2) (by omega) h2 hhalf (by omega)
      · have heq : CalculateParity (goSlice (flipAt l j) s ((s + e) / 2))
            = CalculateParity (goSlice l s ((s + e) / 2)) :=
          parity_goSlice_flip_outside l j s _ (by omega)
        rw [heq, if_pos rfl]
        exact ih ((s + e) / 2) e (by omega) (by omega) h3 h4
    · rw [if_neg hcase]
      omega

theorem binarySearch_flip (l : List Bool) (j : ℕ) (hj : j < l.length)
    (s e : ℕ) (h2 : s ≤ j) (h3 : j < e) (h4 : e ≤ l.length) :
    (binarySearch l (flipAt l j) s e).1 = j := by
  unfold binarySearch
  exact binarySearchGo_flip l j hj (e - s) s e le_rfl h2 h3 h4

theorem blockSize_pos (errorRate : ℚ) : 1 ≤ (NewCascadeCorrector errorRate).blockSize := by
  unfold NewCascadeCorrector
  rcases em (0 < errorRate) with h | h
  · simp only [if_pos h]
    omega
  · simp only [if_neg h]
    omega

theorem cascadeBlock_fixed (l : List Bool) (bs i t : ℕ) :
    cascadeBlock l bs i (l, t) = (l, t + 1) := by
  simp only [cascadeBlock]
  simp

theorem cascadeBlock_of_ne (l : List Bool) (bs j i t : ℕ) (hbs : 1 ≤ bs)
    (hj : j < l.length) (hne : i ≠ j / bs) :
    cascadeBlock l bs i (flipAt l j, t) = (flipAt l j, t + 1) := by
  have hout : j < i * bs ∨ min (i * bs + bs) l.length ≤ j := by
    rcases Nat.lt_or_ge i (j / bs) with hlt | hge
    · right
      have h1 : (i + 1) * bs ≤ (j / bs) * bs := Nat.mul_le_mul_right bs (by omega)
      have h2 : (j / bs) * bs ≤ j := Nat.div_mul_le_self j bs
      have h3 : i * bs + bs ≤ j := by
        have : i * bs + bs = (i + 1) * bs := by ring
        omega
      omega
    · left
      have hge2 : j / bs + 1 ≤ i := by omega
      have h1 : j < (j / bs + 1) * bs :=
        (Nat.div_lt_iff_lt_mul (by omega)).mp (by omega)
      have h2 : (j / bs + 1) * bs ≤ i * bs := Nat.mul_le_mul_right bs hge2
      omega
  simp only [cascadeBlock, length_flipAt]
  rw [parity_goSlice_flip_outside l j _ _ hout, if_pos rfl]

theorem cascadeBlock_at (l : List Bool) (bs j t : ℕ) (hbs : 1 ≤ bs)
    (hj : j < l.length) :
    ∃ d, cascadeBlock l bs (j / bs) (flipAt l j, t) = (l, t + d + 1) := by
  have hs : (j / bs) * bs ≤ j := Nat.div_mul_le_self j bs
  have hlt : j < (j / bs) * bs + bs := by
    have h1 : j < (j / bs + 1) * bs :=
      (Nat.div_lt_iff_lt_mul (by omega)).mp (by omega)
    have : (j / bs + 1) * bs = (j / bs) * bs + bs := by ring
    omega
  have hje : j < min ((j / bs) * bs + bs) l.length := by omega
  have hel : min ((j / bs) * bs + bs) l.length ≤ l.length := Nat.min_le_right _ _
  have hdiff := parity_goSlice_flip_inside l j ((j / bs) * bs)
    (min ((j / bs) * bs + bs) l.length) hs hje hj hel
  have hfind := binarySearch_flip l j hj
    ((j / bs) * bs) (min ((j / bs) * bs + bs) l.length) hs hje hel
  refine ⟨(binarySearch l (flipAt l j) ((j / bs) * bs)
    (min ((j / bs) * bs + bs) l.length)).2, ?_⟩
  simp only [cascadeBlock, length_flipAt]
  rw [hdiff]
  rw [if_neg (by
    cases CalculateParity (goSlice l ((j / bs) * bs)
      (min ((j / bs) * bs + bs) l.length)) <;> simp)]
  rw [hfind, flipAt_flipAt l j hj]

theorem foldBlocks_fixed (l : List Bool) (bs : ℕ) :
    ∀ (L : List ℕ) (t : ℕ),
      L.foldl (fun acc i => cascadeBlock l bs i acc) (l, t) = (l, t + L.length) := by
  intro L
  induction L with
  | nil => intro t; simp
  | cons i r ih =>
    intro t
    rw [List.foldl_cons, cascadeBlock_fixed, ih]
    congr 1
    simp only [List.length_cons]
    omega

theorem foldBlocks_flip (l : List Bool) (bs j : ℕ) (hbs : 1 ≤ bs)
    (hj : j < l.length) :
    ∀ (L : List ℕ) (t : ℕ), (∀ i ∈ L, i ≠ j / bs) →
      L.foldl (fun acc i => cascadeBlock l bs i acc) (flipAt l j, t)
        = (flipAt l j, t + L.length) := by
  intro L
  induction L with
  | nil => intro t _; simp
  | cons i r ih =>
    intro t hmem
    rw [List.foldl_cons, cascadeBlock_of_ne l bs j i t hbs hj (hmem i (by simp)),
      ih (t + 1) (fun x hx => hmem x (by simp [hx]))]
    congr 1
    simp only [List.length_cons]
    omega

theorem cascadePass_corrects (l : List Bool) (bs j t : ℕ) (hbs : 1 ≤ bs)
    (hj : j < l.length) :
    ∃ d, cascadePass l bs (flipAt l j, t) = (l, d) := by
  have hlen1 : 1 ≤ l.length := by omega
  have hjb : j / bs < (l.length + bs - 1) / bs := by
    have h1 : (j + bs) / bs = j / bs + 1 := Nat.add_div_right j (by omega)
    have h2 : (j + bs) / bs ≤ (l.length + bs - 1) / bs :=
      Nat.div_le_div_right (by omega)
    omega
  have e1 : j / bs + ((l.length + bs - 1) / bs - j / bs)
      = (l.length + bs - 1) / bs := by omega
  have hsplit := List.range_add (j / bs) ((l.length + bs - 1) / bs - j / bs)
  rw [e1] at hsplit
  have e2 : (l.length + bs - 1) / bs - j / bs
      = ((l.length + bs - 1) / bs - j / bs - 1) + 1 := by omega
  simp only [cascadePass]
  rw [hsplit, List.foldl_append,
    foldBlocks_flip l bs j hbs hj _ t
      (fun i hi => by have := List.mem_range.mp hi; omega),
    e2, List.range_succ_eq_map]
  simp only [List.map_cons, List.map_map, List.foldl_cons, Nat.add_zero]
  obtain ⟨d, hd⟩ := cascadeBlock_at l bs j (t + (List.range (j / bs)).length) hbs hj
  rw [hd, foldBlocks_fixed]
  exact ⟨_, rfl⟩

theorem cascadePass_fixed (l : List Bool) (bs t : ℕ) :
    cascadePass l bs (l, t)
      = (l, t + (List.range ((l.length + bs - 1) / bs)).length) := by
  simp only [cascadePass]
  rw [foldBlocks_fixed]

theorem cascadeLoop_fixed (l : List Bool) :
    ∀ (p bs t : ℕ), ∃ d, cascadeLoop l p bs (l, t) = (l, d) := by
  intro p
  induction p with
  | zero => intro bs t; exact ⟨t, rfl⟩
  | succ n ih =>
    intro bs t
    unfold cascadeLoop
    rw [cascadePass_fixed]
    exact ih (bs * 2) _

theorem cascadeLoop_corrects (l : List Bool) (j : ℕ) (hj : j < l.length)
    (hbs : 1 ≤ bs) :
    ∀ (p : ℕ), 1 ≤ p → ∃ d, cascadeLoop l p bs (flipAt l j, 0) = (l, d) := by
  intro p hp
  obtain ⟨p1, rfl⟩ : ∃ p1, p = p1 + 1 := ⟨p - 1, by omega⟩
  unfold cascadeLoop
  obtain ⟨d1, hd1⟩ := cascadePass_corrects l bs j 0 hbs hj
  rw [hd1]
  exact cascadeLoop_fixed l p1 (bs * 2) d1

theorem searchComparisonsGo_eq (a b : List Bool) :
    ∀ (fuel s e : ℕ),
      (binarySearchGo a b fuel s e).2 = searchComparisonsGo a b fuel s e := by
  intro fuel
  induction fuel with
  | zero => intro s e; rfl
  | succ n ih =>
    intro s e
    unfold binarySearchGo searchComparisonsGo
    rcases em (s + 1 < e) with hcase | hcase
    · rw [if_pos hcase, if_pos hcase]
      rcases em (CalculateParity (goSlice a s ((s + e) / 2))
          = CalculateParity (goSlice b s ((s + e) / 2))) with hpar | hpar
      · rw [if_pos hpar, if_pos hpar, ih ((s + e) / 2) e]
      · rw [if_neg hpar, if_neg hpar, ih s ((s + e) / 2)]
    · rw [if_neg hcase, if_neg hcase]

theorem searchComparisons_eq (a b : List Bool) (s e : ℕ) :
    (binarySearch a b s e).2 = searchComparisons a b s e := by
  unfold binarySearch searchComparisons
  exact searchComparisonsGo_eq a b (e - s) s e

theorem specBlock_eq (a : List Bool) (bs i : ℕ) (st : List Bool × ℕ) :
    specBlock a bs i st = cascadeBlock a bs i st := by
  simp only [specBlock, cascadeBlock]
  rcases em (CalculateParity (goSlice a (i * bs) (min (i * bs + bs) a.length))
      = CalculateParity (goSlice st.1 (i * bs) (min (i * bs + bs) a.length)))
    with hpar | hpar
  · rw [if_pos hpar, if_pos hpar]
  · rw [if_neg hpar, if_neg hpar,
      searchComparisons_eq a st.1 (i * bs) (min (i * bs + bs) a.length)]

theorem specPass_eq (a : List Bool) (bs : ℕ) (st : List Bool × ℕ) :
    specPass a bs st = cascadePass a bs st := by
  simp only [specPass, cascadePass]
  have hfun : (fun (acc : List Bool × ℕ) i => specBlock a bs i acc)
      = (fun acc i => cascadeBlock a bs i acc) := by
    funext acc i
    exact specBlock_eq a bs i acc
  rw [hfun]

theorem specLoop_eq (a : List Bool) :
    ∀ (p bs : ℕ) (st : List Bool × ℕ), specLoop a p bs st = cascadeLoop a p bs st := by
  intro p
  induction p with
  | zero => intro bs st; rfl
  | succ n ih =>
    intro bs st
    unfold specLoop cascadeLoop
    rw [specPass_eq, ih]

theorem parityComparisons_eq (c : CascadeCorrector) (a b : List Bool) :
    parityComparisons c a b = (cascadeLoop a c.passes c.blockSize (b, 0)).2 := by
  unfold parityComparisons
  rw [specLoop_eq]

end crypto

/-- Claim C5: for every bit key and every single-bit corruption of it (a
pair at Hamming distance 1, the instance of within-capacity inputs the
claim itself names), Cascade's Correct — with the corrector built by
NewCascadeCorrector from any error-rate estimate — returns Bob's key
corrected to exactly Alice's key, and the returned disclosed-bit count is
at least (in fact equal to) the number of parity comparisons performed,
where parityComparisons counts one comparison per block parity check and
one per binary-search bisection step, as the spec prescribes. -/
theorem claim_C5_cascade_corrects_single_error (errorRate : ℚ)
    (aliceKey : List Bool) (j : ℕ) (hj : j < aliceKey.length) :
    ∃ disclosedBits,
      (crypto.NewCascadeCorrector errorRate).Correct aliceKey
          (crypto.flipAt aliceKey j)
        = .ok (aliceKey, disclosedBits)
      ∧ crypto.parityComparisons (crypto.NewCascadeCorrector errorRate) aliceKey
          (crypto.flipAt aliceKey j) ≤ disclosedBits := by
  have hbs := crypto.blockSize_pos errorRate
  obtain ⟨d, hd⟩ := crypto.cascadeLoop_corrects aliceKey j hj hbs 4 (by omega)
  refine ⟨d, ?_, ?_⟩
  · unfold crypto.CascadeCorrector.Correct
    rw [if_neg (by rw [crypto.length_flipAt]; omega)]
    have hp : (crypto.NewCascadeCorrector errorRate).passes = 4 := rfl
    rw [hp, hd]
  · rw [crypto.parityComparisons_eq]
    have hp : (crypto.NewCascadeCorrector errorRate).passes = 4 := rfl
    rw [hp, hd]

/-- Claim C5, evaluated: the single-error pair from the repository's own
test (alice 0101, bob 0001, estimated error rate 0.05). -/
theorem claim_C5_witness :
    ∃ disclosedBits,
      (crypto.NewCascadeCorrector (5 / 100)).Correct [false, true, false, true]
          (crypto.flipAt [false, true, false, true] 1)
        = .ok ([false, true, false, true], disclosedBits)
      ∧ crypto.parityComparisons (crypto.NewCascadeCorrector (5 / 100))
          [false, true, false, true] (crypto.flipAt [false, true, false, true] 1)
          ≤ disclosedBits :=
  claim_C5_cascade_corrects_single_error (5 / 100) [false, true, false, true] 1
    (by decide)

/-- Claim C3: in every exchange that reaches the security decision with
an estimated QBER above the configured threshold, PerformKeyExchange
returns (non-error) a result with secure = false, an empty key, and the
message carrying both the observed QBER and the threshold; the error
return is nil.  The phases are identified by the hypothesis equations;
the conclusion exhibits the exact returned result. -/
theorem claim_C3_insecure_qber_result (bb : qkd.BB84Protocol)
    (backend : qkd.Backend) (aliceBits aliceBases bobBases : List Bool)
    (estDraws remDraws : List ℕ) (alice : qkd.AliceSession)
    (bob : qkd.BobSession) (sifted : qkd.SiftedKey) (qber : ℚ)
    (h1 : qkd.AliceGenerateQubits backend aliceBits aliceBases = .ok alice)
    (h2 : qkd.BobMeasureQubits backend alice.qubits bobBases = .ok bob)
    (h3 : qkd.BasisReconciliation alice bob = .ok sifted)
    (h4 : sifted.aliceKey.length ≠ 0)
    (h5 : qkd.EstimateQBER bb sifted estDraws = some (.ok qber))
    (h6 : bb.qberThreshold < qber) :
    qkd.PerformKeyExchange bb backend aliceBits aliceBases bobBases
        estDraws remDraws
      = some (.ok { key := [], rawKeyLength := sifted.aliceKey.length,
                    finalKeyLength := 0, qber := qber, secure := false,
                    message := .insecureQBER qber bb.qberThreshold }) := by
  simp only [qkd.PerformKeyExchange, h1, h2, h3, h5]
  rw [if_neg h4, if_pos h6]

/-- Claim C3, evaluated: a fully disturbed channel (every measured bit
inverted) on 4 transmissions with matching bases gives QBER 1 > 0.11 and
the insecure non-error result naming 1 and 0.11. -/
theorem claim_C3_witness :
    qkd.PerformKeyExchange (qkd.NewBB84Protocol 1) qkd.invertingBackend
        [true, true, true, true] [false, false, false, false]
        [false, false, false, false] [0] []
      = some (.ok { key := [], rawKeyLength := 4, finalKeyLength := 0,
                    qber := 1, secure := false,
                    message := .insecureQBER 1 (11 / 100) }) := by
  have h := claim_C3_insecure_qber_result (qkd.NewBB84Protocol 1)
    qkd.invertingBackend [true, true, true, true] [false, false, false, false]
    [false, false, false, false] [0] []
    { bits := [true, true, true, true], bases := [false, false, false, false],
      qubits := [{ classicalValue := true, preparationBasis := false },
        { classicalValue := true, preparationBasis := false },
        { classicalValue := true, preparationBasis := false },
        { classicalValue := true, preparationBasis := false }] }
    { bases := [false, false, false, false],
      measurements := [{ measuredBit := false, measurementBasis := false },
        { measuredBit := false, measurementBasis := false },
        { measuredBit := false, measurementBasis := false },
        { measuredBit := false, measurementBasis := false }] }
    { aliceKey := [true, true, true, true], bobKey := [false, false, false, false],
      indices := [0, 1, 2, 3] }
    1 (by decide) (by decide) (by decide) (by decide) (by decide) (by decide)
  exact h

/-- Claim C4, counterexample: the claim states that the removal step of
PerformKeyExchange removes exactly max(1, ⌊m·sample_size⌋) positions, at
least one for every non-empty sifted key.  In this concrete run (32
transmissions, 8 matching bases, noiseless channel, keyLength 8) the
sifted key has m = 8 positions, the claimed count is max(1, ⌊0.8⌋) = 1 —
which would leave 7 < 8 bits and force an insufficient-material result —
yet the exchange returns a secure result with finalKeyLength 8: the code
computes int(8·0.10) = 0 without the minimum-1 clamp and removes nothing,
as the removal-step evaluation in the last conjunct shows. -/
theorem claim_C4_counterexample :
    qkd.PerformKeyExchange (qkd.NewBB84Protocol 8) qkd.noiselessBackend
        (List.replicate 32 true) (List.replicate 32 false)
        qkd.quarterMatchBases [0] []
      = some (.ok { key := quantum.BitsToBytes (List.replicate 8 true),
                    rawKeyLength := 8, finalKeyLength := 8, qber := 0,
                    secure := true, message := .secureOk 0 })
      ∧ max 1 (Int.floor ((8 : ℚ) * (10 / 100))).toNat = 1
      ∧ (qkd.removalStep (qkd.NewBB84Protocol 8) qkd.sifted8 []).map
          (fun sk => sk.aliceKey.length) = some 8 := by
  refine ⟨by decide, by decide, by decide⟩

namespace qkd

theorem collectDistinct_length (need : ℕ) :
    ∀ (draws acc : List ℕ) (out : List ℕ),
      collectDistinct need draws acc = some out → acc.length ≤ need →
        out.length = need := by
  intro draws
  induction draws with
  | nil =>
    intro acc out h hle
    unfold collectDistinct at h
    rcases em (need ≤ acc.length) with hc | hc
    · rw [if_pos hc] at h
      injection h with h2
      subst h2
      omega
    · rw [if_neg hc] at h
      cases h
  | cons d rest ih =>
    intro acc out h hle
    unfold collectDistinct at h
    rcases em (need ≤ acc.length) with hc | hc
    · rw [if_pos hc] at h
      injection h with h2
      subst h2
      omega
    · rw [if_neg hc] at h
      refine ih _ out h ?_
      rcases em (d ∈ acc) with hm | hm
      · rw [if_pos hm]
        omega
      · rw [if_neg hm]
        simp only [List.length_append, List.length_cons, List.length_nil]
        omega

theorem collectDistinct_nodup (need : ℕ) :
    ∀ (draws acc : List ℕ) (out : List ℕ),
      collectDistinct need draws acc = some out → acc.Nodup → out.Nodup := by
  intro draws
  induction draws with
  | nil =>
    intro acc out h hnd
    unfold collectDistinct at h
    rcases em (need ≤ acc.length) with hc | hc
    · rw [if_pos hc] at h
      injection h with h2
      subst h2
      exact hnd
    · rw [if_neg hc] at h
      cases h
  | cons d rest ih =>
    intro acc out h hnd
    unfold collectDistinct at h
    rcases em (need ≤ acc.length) with hc | hc
    · rw [if_pos hc] at h
      injection h with h2
      subst h2
      exact hnd
    · rw [if_neg hc] at h
      refine ih _ out h ?_
      rcases em (d ∈ acc) with hm | hm
      · rw [if_pos hm]
        exact hnd
      · rw [if_neg hm]
        simp [List.nodup_append, hnd, hm]

theorem collectDistinct_bound (need m : ℕ) :
    ∀ (draws acc : List ℕ) (out : List ℕ),
      collectDistinct need draws acc = some out →
      (∀ d ∈ draws, d < m) → (∀ x ∈ acc, x < m) → ∀ x ∈ out, x < m := by
  intro draws
  induction draws with
  | nil =>
    intro acc out h hd ha
    unfold collectDistinct at h
    rcases em (need ≤ acc.length) with hc | hc
    · rw [if_pos hc] at h
      injection h with h2
      subst h2
      exact ha
    · rw [if_neg hc] at h
      cases h
  | cons d rest ih =>
    intro acc out h hd ha
    unfold collectDistinct at h
    rcases em (need ≤ acc.length) with hc | hc
    · rw [if_pos hc] at h
      injection h with h2
      subst h2
      exact ha
    · rw [if_neg hc] at h
      refine ih _ out h (fun x hx => hd x (by simp [hx])) ?_
      rcases em (d ∈ acc) with hm | hm
      · rw [if_pos hm]
        exact ha
      · rw [if_neg hm]
        intro x hx
        rcases List.mem_append.mp hx with h1 | h1
        · exact ha x h1
        · have : x = d := by simpa using h1
          subst this
          exact hd x (by simp)

theorem length_filter_not_count (p : ℕ → Bool) :
    ∀ l : List ℕ, (l.filter (fun x => ! p x)).length
      = l.length - (l.filter p).length := by
  intro l
  induction l with
  | nil => rfl
  | cons a t ih =>
    have hle : (t.filter p).length ≤ t.length := List.length_filter_le _ _
    rcases h : p a with _ | _
    · simp [List.filter_cons, h, ih]
      omega
    · simp [List.filter_cons, h, ih]

theorem range_filter_mem_length (out : List ℕ) (m : ℕ) (hnd : out.Nodup)
    (hb : ∀ x ∈ out, x < m) :
    ((List.range m).filter (fun i => decide (i ∈ out))).length = out.length := by
  have hperm : List.Perm ((List.range m).filter (fun i => decide (i ∈ out))) out := by
    rw [List.perm_ext_iff_of_nodup (List.Nodup.filter _ (List.nodup_range m)) hnd]
    intro a
    simp only [List.mem_filter, List.mem_range, decide_eq_true_eq]
    constructor
    · intro h
      exact h.2
    · intro h
      exact ⟨hb a h, h⟩
  exact hperm.length_eq

/-- Claim C4, amended: the sample-removal step of PerformKeyExchange
removes exactly ⌊m·sample_size⌋ positions — a freshly drawn set of that
many distinct random indices, independent of the estimation sample — from
both keys (the code omits the minimum-1 clamp that EstimateQBER applies,
so when m·sample_size < 1 no position is removed). -/
theorem claim_C4_amended_removal_count (bb : BB84Protocol) (sifted : SiftedKey)
    (draws : List ℕ) (out : SiftedKey)
    (hdr : ∀ d ∈ draws, d < sifted.aliceKey.length)
    (h : removalStep bb sifted draws = some out) :
    out.aliceKey.length
        = sifted.aliceKey.length
            - (goInt ((sifted.aliceKey.length : ℚ) * bb.sampleSize)).toNat
      ∧ out.bobKey.length = out.aliceKey.length := by
  simp only [removalStep] at h
  rcases hcol : collectDistinct
      (goInt ((sifted.aliceKey.length : ℚ) * bb.sampleSize)).toNat draws []
    with _ | s
  · rw [hcol] at h
    cases h
  · rw [hcol] at h
    injection h with h2
    subst h2
    have hs1 := collectDistinct_length _ draws [] s hcol (by simp)
    have hs2 := collectDistinct_nodup _ draws [] s hcol (by simp)
    have hs3 := collectDistinct_bound _ sifted.aliceKey.length draws [] s hcol
      hdr (by simp)
    constructor
    · simp only [RemoveSampledBits, List.length_map]
      have hnot : (fun i => decide (¬ i ∈ s)) = (fun i => ! decide (i ∈ s)) := by
        funext i
        simp
      rw [show (fun i => (!decide (i ∈ s))) = (fun i => ! (fun x => decide (x ∈ s)) i)
        from rfl] at hnot
      rw [hnot, length_filter_not_count (fun x => decide (x ∈ s))
          (List.range sifted.aliceKey.length),
        List.length_range, range_filter_mem_length s sifted.aliceKey.length hs2 hs3,
        hs1]
    · simp only [RemoveSampledBits, List.length_map]

end qkd

/-- Claim C4, amended theorem evaluated: a 20-bit sifted key with the
default sample size 0.10 and draws 3, 3, 7 loses exactly
⌊20·0.10⌋ = 2 positions from both keys. -/
theorem claim_C4_witness :
    ∃ out, qkd.removalStep (qkd.NewBB84Protocol 1) qkd.sifted20 [3, 3, 7] = some out
      ∧ out.aliceKey.length = 18 ∧ out.bobKey.length = 18 := by
  have hsome : (qkd.removalStep (qkd.NewBB84Protocol 1) qkd.sifted20 [3, 3, 7]).isSome
      = true := by decide
  obtain ⟨out, hout⟩ := Option.isSome_iff_exists.mp hsome
  have h := qkd.claim_C4_amended_removal_count (qkd.NewBB84Protocol 1) qkd.sifted20
    [3, 3, 7] out (by decide) hout
  refine ⟨out, hout, ?_, ?_⟩
  · rw [h.1]
    decide
  · rw [h.2, h.1]
    decide

/-- Claim C1, evaluated at the failing input: an Active session
(keyLength 2) whose BB84 run ends insecure (every measured bit inverted,
QBER 1 above the 0.11 threshold).  The claim — matching the spec's
session state machine — requires terminal status Aborted with no key
stored; the code instead marks the session Completed (with isSecure
false and the insecure-QBER message, stamping CompletedAt), stores no
key, and returns the not-secure error.  A reader that sees Completed is
therefore not guaranteed to find a key record, contradicting the spec's
ordering guarantee as well. -/
theorem claim_C1_failing_eval :
    (qkd.ExecuteKeyExchange qkd.invertingBackend
        [true, true, true, true] [false, false, false, false]
        [false, false, false, false] [0] []
        { sessions := [(1, qkd.activeSession 2)], keys := [] } 1 99).map
      (fun p => ((qkd.lookupSession p.1 1).map
          (fun s => (s.status, s.isSecure, s.completedAtSet)),
        p.1.keys.length,
        match p.2 with
        | .error (.notSecure m) => some m
        | _ => none))
      = some (some (.completed, false, true), 0,
          some (.insecureQBER 1 (11 / 100))) := by
  decide

/-- Claim C8: in every successful run of
ExecuteKeyExchangeWithPostProcessing, the stored key material is exactly
the privacy amplification of Alice's entire sifted key — the
QBER-estimation sample positions are never removed from the sifted key in
this path, and only their count int(m·sampleSize) enters the leakage
fraction (sampleBits + disclosedBits)/m.  The run is identified by the
hypothesis equations; the conclusion exhibits the stored record, whose
material is the Amplify output on the full sifted.aliceKey. -/
theorem claim_C8_post_processing_amplifies_full_sifted_key
    (hf : crypto.HashFamily) (backend : qkd.Backend)
    (aliceBits aliceBases bobBases : List Bool) (estDraws : List ℕ)
    (st : qkd.SMState) (sessionID keyID : ℕ) (session : qkd.QKDSession)
    (alice : qkd.AliceSession) (bob : qkd.BobSession) (sifted : qkd.SiftedKey)
    (qber : ℚ) (bobCorrected : List Bool) (disclosedBits : ℕ) (out : List ℕ)
    (hs : qkd.lookupSession st sessionID = some session)
    (hactive : session.status = .active)
    (h1 : qkd.AliceGenerateQubits backend aliceBits aliceBases = .ok alice)
    (h2 : qkd.BobMeasureQubits backend alice.qubits bobBases = .ok bob)
    (h3 : qkd.BasisReconciliation alice bob = .ok sifted)
    (h4 : qkd.EstimateQBER (qkd.NewBB84Protocol (session.keyLength * 4)) sifted
            estDraws = some (.ok qber))
    (h5 : ¬ ((qkd.NewBB84Protocol (session.keyLength * 4)).qberThreshold < qber))
    (h6 : (crypto.NewCascadeCorrector qber).Correct sifted.aliceKey sifted.bobKey
            = .ok (bobCorrected, disclosedBits))
    (h7 : (crypto.VerifyKeyCorrectness sifted.aliceKey bobCorrected).1 = true)
    (h8 : ¬ (crypto.CalculateSecureKeyLength (sifted.aliceKey.length : ℤ) qber
              (disclosedBits : ℤ) 64 < (session.keyLength : ℤ)))
    (h9 : crypto.Amplify hf (crypto.NewPrivacyAmplifier crypto.SHA3_256Method)
            sifted.aliceKey
            (((goInt ((sifted.aliceKey.length : ℚ)
                  * (qkd.NewBB84Protocol (session.keyLength * 4)).sampleSize) : ℚ)
                + (disclosedBits : ℚ)) / (sifted.aliceKey.length : ℚ))
            (session.keyLength : ℤ) = .ok out) :
    ∃ st2, qkd.ExecuteKeyExchangeWithPostProcessing hf backend aliceBits
        aliceBases bobBases estDraws st sessionID keyID
      = some (st2, .ok { keyID := keyID, sessionID := sessionID,
                         keyMaterial := out, keyLength := out.length * 8,
                         isActive := true })
      ∧ (keyID, ({ keyID := keyID, sessionID := sessionID, keyMaterial := out,
                   keyLength := out.length * 8,
                   isActive := true } : qkd.QuantumKey)) ∈ st2.keys := by
  refine ⟨{ qkd.updateSessionStatus (qkd.setSessionStatus st sessionID .initiating)
        sessionID .completed qber sifted.aliceKey.length (out.length * 8) true
        (.secureGenerated qber disclosedBits) with
      keys := (qkd.updateSessionStatus (qkd.setSessionStatus st sessionID .initiating)
        sessionID .completed qber sifted.aliceKey.length (out.length * 8) true
        (.secureGenerated qber disclosedBits)).keys
        ++ [(keyID, { keyID := keyID, sessionID := sessionID, keyMaterial := out,
                      keyLength := out.length * 8, isActive := true })] }, ?_, ?_⟩
  · simp only [qkd.ExecuteKeyExchangeWithPostProcessing, hs, h1, h2, h3, h4, h6, h9,
      hactive]
    rw [if_neg (by simp)]
    rw [if_neg h5, if_neg (by simp [h7]), if_neg h8]
  · simp

set_option maxRecDepth 100000 in
set_option maxHeartbeats 2000000 in
/-- Claim C8 evaluated on a full run: 256 transmissions through a backend
with a single channel error, an Active session requesting 16 bits,
estimation draws 0..24.  The sifted key keeps all 256 positions, QBER is
1/25, Cascade corrects the error disclosing 33 bits, the secure length
106 passes the gate, and the stored key is the amplification of the full
256-bit sifted key — 2 bytes of the stub SHA3-256 digest. -/
theorem claim_C8_witness :
    ∃ st2,
      qkd.ExecuteKeyExchangeWithPostProcessing stubHashFamily
          qkd.flipFirstBackend (List.replicate 256 false)
          (List.replicate 256 false) (List.replicate 256 false)
          (List.range 25)
          { sessions := [(7, qkd.activeSession 16)], keys := [] } 7 99
        = some (st2, .ok { keyID := 99, sessionID := 7, keyMaterial := [0, 0],
                           keyLength := 16, isActive := true })
      ∧ (99, ({ keyID := 99, sessionID := 7, keyMaterial := [0, 0],
                keyLength := 16, isActive := true } : qkd.QuantumKey))
          ∈ st2.keys :=
  claim_C8_post_processing_amplifies_full_sifted_key stubHashFamily
    qkd.flipFirstBackend (List.replicate 256 false) (List.replicate 256 false)
    (List.replicate 256 false) (List.range 25)
    { sessions := [(7, qkd.activeSession 16)], keys := [] } 7 99
    (qkd.activeSession 16) qkd.alice256 qkd.bob256 qkd.sifted256
    (1 / 25) (List.replicate 256 false) 33 [0, 0]
    (by decide) (by decide) (by decide) (by decide) (by decide) (by decide)
    (by decide) (by decide) (by decide) (by decide) (by decide)

end

end GoOKD
